import Mathlib

/-!
Verification of the session layer of a language-server MCP bridge:
message framing and request correlation (`lsp-client`), process
supervision with bounded restart (`clangd-manager`), and the
capacity-bounded open-file registry (`file-tracker`).

JavaScript strings are modelled as `List Char` (sequences of code
points); `Map` objects are modelled as insertion-ordered association
lists; the cooperative single-threaded scheduler is modelled by explicit
interleaving of atomic blocks between `await` points.
-/

namespace LsMcp

/-! ## Digits: `parseInt(s, 10)` on a digit capture, and number printing -/

def isDigitCh (c : Char) : Bool := 48 ≤ c.toNat && c.toNat ≤ 57

def digitChar (d : Nat) : Char :=
  match d with
  | 0 => '0' | 1 => '1' | 2 => '2' | 3 => '3' | 4 => '4'
  | 5 => '5' | 6 => '6' | 7 => '7' | 8 => '8' | _ => '9'

def natDigitsAux : Nat → Nat → List Char
  | 0, n => [digitChar n]
  | fuel + 1, n =>
    if n < 10 then [digitChar n]
    else natDigitsAux fuel (n / 10) ++ [digitChar (n % 10)]

/-- Decimal digits of a natural number, most significant first. -/
def natDigits (n : Nat) : List Char := natDigitsAux n n

/-- `parseInt(ds, 10)` where `ds` is a nonempty all-digit capture. -/
def parseDigits (ds : List Char) : Nat :=
  ds.foldl (fun a c => a * 10 + (c.toNat - 48)) 0

theorem digitChar_toNat : ∀ d, d < 10 → (digitChar d).toNat = 48 + d := by decide

theorem isDigitCh_digitChar : ∀ d, d < 10 → isDigitCh (digitChar d) = true := by decide

theorem parseDigits_step (xs : List Char) (a : Nat) :
    List.foldl (fun a c => a * 10 + (c.toNat - 48)) a xs
      = a * 10 ^ xs.length + parseDigits xs := by
  induction xs generalizing a with
  | nil => simp [parseDigits]
  | cons x xs ih =>
    simp only [List.foldl_cons, parseDigits, List.length_cons]
    rw [ih, ih (0 * 10 + (x.toNat - 48))]
    ring

theorem parseDigits_append (xs ys : List Char) :
    parseDigits (xs ++ ys)
      = parseDigits xs * 10 ^ ys.length + parseDigits ys := by
  simp only [parseDigits, List.foldl_append]
  rw [parseDigits_step]
  rfl

theorem natDigitsAux_spec : ∀ fuel n, n ≤ fuel →
    parseDigits (natDigitsAux fuel n) = n ∧ natDigitsAux fuel n ≠ []
      ∧ ∀ c ∈ natDigitsAux fuel n, isDigitCh c = true := by
  intro fuel
  induction fuel with
  | zero =>
    intro n hn
    have : n = 0 := by omega
    subst this
    refine ⟨by simp [natDigitsAux, parseDigits, digitChar], by simp [natDigitsAux], ?_⟩
    simp only [natDigitsAux, List.mem_singleton]
    intro c hc; subst hc; exact isDigitCh_digitChar 0 (by omega)
  | succ fuel ih =>
    intro n hn
    by_cases h : n < 10
    · refine ⟨?_, ?_, ?_⟩
      · simp [natDigitsAux, h, parseDigits, digitChar_toNat n h]
      · simp [natDigitsAux, h]
      · simp only [natDigitsAux, h, if_pos, List.mem_singleton]
        intro c hc; subst hc; exact isDigitCh_digitChar n h
    · have hrec : n / 10 ≤ fuel := by
        have := Nat.div_lt_self (show 0 < n by omega) (show 1 < 10 by omega)
        omega
      obtain ⟨ihp, ihne, ihd⟩ := ih (n / 10) hrec
      refine ⟨?_, ?_, ?_⟩
      · simp only [natDigitsAux, h, if_neg, if_false]
        rw [parseDigits_append, ihp]
        simp [parseDigits, digitChar_toNat (n % 10) (Nat.mod_lt _ (by omega))]
        omega
      · simp [natDigitsAux, h]
      · simp only [natDigitsAux, h, if_neg, if_false, List.mem_append,
          List.mem_singleton]
        intro c hc
        rcases hc with hc | hc
        · exact ihd c hc
        · subst hc; exact isDigitCh_digitChar (n % 10) (Nat.mod_lt _ (by omega))

theorem parseDigits_natDigits (n : Nat) : parseDigits (natDigits n) = n :=
  (natDigitsAux_spec n n le_rfl).1

theorem natDigits_ne_nil (n : Nat) : natDigits n ≠ [] :=
  (natDigitsAux_spec n n le_rfl).2.1

theorem natDigits_all_digits (n : Nat) :
    ∀ c ∈ natDigits n, isDigitCh c = true :=
  (natDigitsAux_spec n n le_rfl).2.2

theorem not_digit_cr : isDigitCh '\r' = false := by decide

theorem not_digit_lf : isDigitCh '\n' = false := by decide

/-! ## List scanning helpers used by the decoder model -/

/-- `leadsWith p s` : `p` occurs at the start of `s`. -/
def leadsWith : List Char → List Char → Bool
  | [], _ => true
  | _ :: _, [] => false
  | p :: ps, c :: cs => p = c && leadsWith ps cs

theorem leadsWith_append (p r : List Char) : leadsWith p (p ++ r) = true := by
  induction p with
  | nil => rfl
  | cons x xs ih => simp [leadsWith, ih]

/-- `String.indexOf`-style search for the first occurrence of a pattern. -/
def indexOfSeq (pat : List Char) : List Char → Option Nat
  | [] => if leadsWith pat [] then some 0 else none
  | c :: cs =>
      if leadsWith pat (c :: cs) then some 0
      else (indexOfSeq pat cs).map (· + 1)

theorem takeWhile_append_of_all (p : Char → Bool) (xs : List Char)
    (y : Char) (ys : List Char) (hall : ∀ x ∈ xs, p x = true) (hy : p y = false) :
    (xs ++ y :: ys).takeWhile p = xs ∧ (xs ++ y :: ys).dropWhile p = y :: ys := by
  induction xs with
  | nil => simp [List.takeWhile, List.dropWhile, hy]
  | cons x xs ih =>
    have hx : p x = true := hall x (by simp)
    have ih' := ih (fun z hz => hall z (by simp [hz]))
    simp [List.takeWhile, List.dropWhile, hx, ih'.1, ih'.2]

/-! ## JSON values, `JSON.stringify` and `JSON.parse`

The client exchanges JSON-RPC bodies through the platform functions
`JSON.parse` / `JSON.stringify`. They are modelled executably on a JSON
value domain of nulls, booleans, integers, strings without escape
sequences, arrays and objects. -/

inductive Json where
  | null
  | bool (b : Bool)
  | num (i : Int)
  | str (s : List Char)
  | arr (elems : List Json)
  | obj (fields : List (List Char × Json))

def intChars (i : Int) : List Char :=
  if i < 0 then '-' :: natDigits i.natAbs else natDigits i.toNat

def serStr (s : List Char) : List Char := '"' :: (s ++ ['"'])

mutual

def serialize : Json → List Char
  | .bool false => ['f', 'a', 'l', 's', 'e']
  | .bool true => ['t', 'r', 'u', 'e']
  | .null => ['n', 'u', 'l', 'l']
  | .num i => intChars i
  | .str s => serStr s
  | .arr xs => '[' :: (serializeElems xs ++ [']'])
  | .obj fs => '{' :: (serializeFields fs ++ ['}'])

def serializeElems : List Json → List Char
  | [] => []
  | x :: xs =>
      serialize x ++ (if xs.isEmpty then [] else [',']) ++ serializeElems xs

def serializeFields : List (List Char × Json) → List Char
  | [] => []
  | (k, v) :: fs =>
      (serStr k ++ ':' :: serialize v)
        ++ (if fs.isEmpty then [] else [',']) ++ serializeFields fs

end

mutual

/-- Fuel that suffices for the recursive-descent parser on this value. -/
def jfuel : Json → Nat
  | .null | .bool _ | .num _ | .str _ => 1
  | .arr xs => 1 + jfuelElems xs
  | .obj fs => 1 + jfuelFields fs

def jfuelElems : List Json → Nat
  | [] => 1
  | x :: xs => 1 + max (jfuel x) (jfuelElems xs)

def jfuelFields : List (List Char × Json) → Nat
  | [] => 1
  | (_, v) :: fs => 1 + max (jfuel v) (jfuelFields fs)

end

/-- Characters `JSON.stringify` emits verbatim inside a string literal:
printable ASCII other than the quote and the backslash. -/
def wfChar (c : Char) : Bool :=
  32 ≤ c.toNat && c.toNat < 128 && c != '"' && c != '\\'

def wfStr (s : List Char) : Bool := s.all wfChar

mutual

def wfJson : Json → Bool
  | .null | .bool _ | .num _ => true
  | .str s => wfStr s
  | .arr xs => wfElems xs
  | .obj fs => wfFields fs

def wfElems : List Json → Bool
  | [] => true
  | x :: xs => wfJson x && wfElems xs

def wfFields : List (List Char × Json) → Bool
  | [] => true
  | (k, v) :: fs => wfStr k && wfJson v && wfFields fs

end

def parseStringBody (r : List Char) : Option (List Char × List Char) :=
  match r.dropWhile (· != '"') with
  | c :: r2 => if c = '"' then some (r.takeWhile (· != '"'), r2) else none
  | [] => none

mutual

def parseValue : Nat → List Char → Option (Json × List Char)
  | 0, _ => none
  | _ + 1, [] => none
  | fuel + 1, c :: r =>
    if c = 'n' then
      if leadsWith ['u', 'l', 'l'] r then some (.null, r.drop 3) else none
    else if c = 't' then
      if leadsWith ['r', 'u', 'e'] r then some (.bool true, r.drop 3) else none
    else if c = 'f' then
      if leadsWith ['a', 'l', 's', 'e'] r then some (.bool false, r.drop 4) else none
    else if c = '"' then
      match parseStringBody r with
      | some (s, r2) => some (.str s, r2)
      | none => none
    else if c = '[' then
      match parseElems fuel r with
      | some (xs, r2) => some (.arr xs, r2)
      | none => none
    else if c = '{' then
      match parseFieldsP fuel r with
      | some (fs, r2) => some (.obj fs, r2)
      | none => none
    else if c = '-' then
      let ds := r.takeWhile isDigitCh
      if ds.isEmpty then none
      else some (.num (-(parseDigits ds : Int)), r.dropWhile isDigitCh)
    else if isDigitCh c then
      some (.num (parseDigits ((c :: r).takeWhile isDigitCh) : Int),
            (c :: r).dropWhile isDigitCh)
    else none

def parseElems : Nat → List Char → Option (List Json × List Char)
  | 0, _ => none
  | _ + 1, [] => none
  | fuel + 1, c :: r =>
    if c = ']' then some ([], r)
    else
      match parseValue fuel (c :: r) with
      | none => none
      | some (v, r1) =>
        match r1 with
        | [] => none
        | c2 :: r2 =>
          if c2 = ',' then
            match parseElems fuel r2 with
            | some (vs, r3) => some (v :: vs, r3)
            | none => none
          else if c2 = ']' then some ([v], r2)
          else none

def parseFieldsP : Nat → List Char → Option (List (List Char × Json) × List Char)
  | 0, _ => none
  | _ + 1, [] => none
  | fuel + 1, c :: r =>
    if c = '}' then some ([], r)
    else if c = '"' then
      match parseStringBody r with
      | none => none
      | some (k, r1) =>
        match r1 with
        | [] => none
        | c2 :: r2 =>
          if c2 = ':' then
            match parseValue fuel r2 with
            | none => none
            | some (v, r3) =>
              match r3 with
              | [] => none
              | c3 :: r4 =>
                if c3 = ',' then
                  match parseFieldsP fuel r4 with
                  | some (fs, r5) => some ((k, v) :: fs, r5)
                  | none => none
                else if c3 = '}' then some ([(k, v)], r4)
                else none
          else none
    else none

end

/-- `JSON.parse`: the whole text must form a single value. -/
def parseJson (s : List Char) : Option Json :=
  match parseValue (s.length + 1) s with
  | some (j, []) => some j
  | _ => none

/-! ## Round trip: the parser inverts the serializer -/

theorem takeWhile_all (p : Char → Bool) (xs : List Char)
    (hall : ∀ x ∈ xs, p x = true) :
    xs.takeWhile p = xs ∧ xs.dropWhile p = [] := by
  induction xs with
  | nil => simp
  | cons x xs ih =>
    have hx : p x = true := hall x (by simp)
    have ih' := ih (fun z hz => hall z (by simp [hz]))
    simp [List.takeWhile, List.dropWhile, hx, ih'.1, ih'.2]

theorem isDigitCh_ne_specials (c : Char) (h : isDigitCh c = true) :
    c ≠ 'n' ∧ c ≠ 't' ∧ c ≠ 'f' ∧ c ≠ '"' ∧ c ≠ '[' ∧ c ≠ '{' ∧ c ≠ '-'
      ∧ c ≠ ']' ∧ c ≠ ',' ∧ c ≠ '}' ∧ c ≠ ':' := by
  refine ⟨?_, ?_, ?_, ?_, ?_, ?_, ?_, ?_, ?_, ?_, ?_⟩ <;>
    (rintro rfl; exact absurd h (by decide))

theorem jfuel_pos : (∀ m : Json, 1 ≤ jfuel m) ∧ (∀ xs : List Json, 1 ≤ jfuelElems xs)
    ∧ (∀ fs : List (List Char × Json), 1 ≤ jfuelFields fs) := by
  refine ⟨fun m => ?_, fun xs => ?_, fun fs => ?_⟩
  · cases m <;> simp [jfuel]
  · cases xs <;> simp [jfuelElems]
  · rcases fs with _ | ⟨⟨k, v⟩, fs⟩ <;> simp [jfuelFields]

/-- The first character of a serialized value is never a closing
delimiter or separator. -/
theorem serialize_head (m : Json) :
    ∃ c t, serialize m = c :: t ∧ c ≠ ']' ∧ c ≠ ',' ∧ c ≠ '}' := by
  cases m with
  | null => exact ⟨'n', _, rfl, by decide, by decide, by decide⟩
  | bool b =>
    cases b
    · exact ⟨'f', _, rfl, by decide, by decide, by decide⟩
    · exact ⟨'t', _, rfl, by decide, by decide, by decide⟩
  | num i =>
    show ∃ c t, intChars i = c :: t ∧ _
    rw [intChars]
    by_cases h : i < 0
    · exact ⟨'-', natDigits i.natAbs, by rw [if_pos h], by decide, by decide, by decide⟩
    · simp only [h, if_neg, if_false]
      obtain ⟨c, t, hct⟩ := List.exists_cons_of_ne_nil (natDigits_ne_nil i.toNat)
      have hc : isDigitCh c = true :=
        natDigits_all_digits _ c (hct ▸ List.mem_cons_self _ _)
      obtain ⟨_, _, _, _, _, _, _, h1, h2, h3, _⟩ := isDigitCh_ne_specials c hc
      exact ⟨c, t, hct, h1, h2, h3⟩
  | str s => exact ⟨'"', _, rfl, by decide, by decide, by decide⟩
  | arr xs => exact ⟨'[', _, rfl, by decide, by decide, by decide⟩
  | obj fs => exact ⟨'{', _, rfl, by decide, by decide, by decide⟩

def notDigitStart : List Char → Bool
  | [] => true
  | c :: _ => !isDigitCh c

theorem wfStr_no_quote (s : List Char) (h : wfStr s = true) :
    ∀ c ∈ s, (c != '"') = true := by
  intro c hc
  have h2 := List.all_eq_true.mp h c hc
  simp only [wfChar, Bool.and_eq_true, bne_iff_ne, ne_eq] at h2
  simp only [bne_iff_ne, ne_eq]
  exact h2.1.2

theorem drop3_cons (a b c : Char) (r : List Char) :
    List.drop 3 (a :: b :: c :: r) = r := rfl

theorem drop4_cons (a b c d : Char) (r : List Char) :
    List.drop 4 (a :: b :: c :: d :: r) = r := rfl

theorem parseStringBody_closed (s rest : List Char) (h : wfStr s = true) :
    parseStringBody (s ++ '"' :: rest) = some (s, rest) := by
  have htd := takeWhile_append_of_all (· != '"') s '"' rest
    (wfStr_no_quote s h) (by decide)
  simp [parseStringBody, htd.1, htd.2]

theorem parseValue_digits (f : Nat) (n : Nat) (rest : List Char)
    (hnd : notDigitStart rest = true) :
    parseValue (f + 1) (natDigits n ++ rest) = some (.num (n : Int), rest) := by
  obtain ⟨c, t, hct⟩ := List.exists_cons_of_ne_nil (natDigits_ne_nil n)
  have hcd : isDigitCh c = true :=
    natDigits_all_digits _ c (hct ▸ List.mem_cons_self _ _)
  obtain ⟨h1, h2, h3, h4, h5, h6, h7, _, _, _, _⟩ := isDigitCh_ne_specials c hcd
  have hds : ∀ x ∈ natDigits n, isDigitCh x = true := natDigits_all_digits _
  have htd : (natDigits n ++ rest).takeWhile isDigitCh = natDigits n
      ∧ (natDigits n ++ rest).dropWhile isDigitCh = rest := by
    cases rest with
    | nil => simpa using takeWhile_all isDigitCh (natDigits n) hds
    | cons y ys =>
      have hy : isDigitCh y = false := by
        simp [notDigitStart] at hnd
        exact hnd
      exact takeWhile_append_of_all isDigitCh _ y ys hds hy
  have hpd : parseDigits (c :: t) = n := by rw [← hct]; exact parseDigits_natDigits n
  rw [hct] at htd ⊢
  rw [List.cons_append] at htd ⊢
  simp [parseValue, h1, h2, h3, h4, h5, h6, h7, hcd, htd.1, htd.2, hpd]

theorem parse_roundtrip_aux : ∀ fuel : Nat,
    (∀ m : Json, ∀ rest, jfuel m ≤ fuel → wfJson m = true →
      notDigitStart rest = true →
      parseValue fuel (serialize m ++ rest) = some (m, rest)) ∧
    (∀ xs : List Json, ∀ rest, jfuelElems xs ≤ fuel → wfElems xs = true →
      parseElems fuel (serializeElems xs ++ ']' :: rest) = some (xs, rest)) ∧
    (∀ fs, ∀ rest, jfuelFields fs ≤ fuel → wfFields fs = true →
      parseFieldsP fuel (serializeFields fs ++ '}' :: rest) = some (fs, rest)) := by
  intro fuel
  induction fuel using Nat.strong_induction_on with
  | _ fuel ih =>
  match fuel with
  | 0 =>
    refine ⟨fun m rest hf => ?_, fun xs rest hf => ?_, fun fs rest hf => ?_⟩
    · exact absurd hf (by have := jfuel_pos.1 m; omega)
    · exact absurd hf (by have := jfuel_pos.2.1 xs; omega)
    · exact absurd hf (by have := jfuel_pos.2.2 fs; omega)
  | f + 1 =>
    have ihf := ih f (Nat.lt_succ_self f)
    refine ⟨fun m rest hf hwf hnd => ?_, fun xs rest hf hwf => ?_,
      fun fs rest hf hwf => ?_⟩
    · -- single value
      cases m with
      | null =>
        show parseValue (f + 1) ('n' :: 'u' :: 'l' :: 'l' :: rest) = _
        have hlw : leadsWith ['u', 'l', 'l'] ('u' :: 'l' :: 'l' :: rest) = true :=
          leadsWith_append ['u', 'l', 'l'] rest
        simp [parseValue, hlw, drop3_cons]
      | bool b =>
        cases b
        · show parseValue (f + 1) ('f' :: 'a' :: 'l' :: 's' :: 'e' :: rest) = _
          have hlw : leadsWith ['a', 'l', 's', 'e'] ('a' :: 'l' :: 's' :: 'e' :: rest) = true :=
            leadsWith_append ['a', 'l', 's', 'e'] rest
          simp [parseValue, hlw, drop4_cons]
        · show parseValue (f + 1) ('t' :: 'r' :: 'u' :: 'e' :: rest) = _
          have hlw : leadsWith ['r', 'u', 'e'] ('r' :: 'u' :: 'e' :: rest) = true :=
            leadsWith_append ['r', 'u', 'e'] rest
          simp [parseValue, hlw, drop3_cons]
      | num i =>
        show parseValue (f + 1) (intChars i ++ rest) = _
        rw [intChars]
        by_cases h : i < 0
        · simp only [h, if_pos, List.cons_append]
          have hds : ∀ c ∈ natDigits i.natAbs, isDigitCh c = true :=
            natDigits_all_digits _
          have htd : (natDigits i.natAbs ++ rest).takeWhile isDigitCh
                = natDigits i.natAbs
              ∧ (natDigits i.natAbs ++ rest).dropWhile isDigitCh = rest := by
            cases rest with
            | nil => simpa using takeWhile_all isDigitCh (natDigits i.natAbs) hds
            | cons y ys =>
              have hy : isDigitCh y = false := by
                simp [notDigitStart] at hnd; exact hnd
              exact takeWhile_append_of_all isDigitCh _ y ys hds hy
          have hi : Json.num i = Json.num (-(i.natAbs : Int)) := by
            rw [Int.ofNat_natAbs_of_nonpos (le_of_lt h), neg_neg]
          rw [hi]
          simp [parseValue, htd.1, htd.2, natDigits_ne_nil, List.isEmpty_iff,
            parseDigits_natDigits]
        · simp only [h, if_neg, if_false]
          have hi : Json.num i = Json.num ((i.toNat : Int)) := by
            rw [Int.toNat_of_nonneg (by omega)]
          rw [hi]
          exact parseValue_digits f i.toNat rest hnd
      | str s =>
        show parseValue (f + 1) (serStr s ++ rest) = _
        have hwfs : wfStr s = true := hwf
        rw [serStr, List.cons_append, List.append_assoc]
        simp [parseValue, parseStringBody_closed s rest hwfs]
      | arr xs =>
        show parseValue (f + 1) (('[' :: (serializeElems xs ++ [']'])) ++ rest) = _
        have hfx : jfuelElems xs ≤ f := by simp [jfuel] at hf; omega
        have hwfx : wfElems xs = true := hwf
        rw [List.cons_append, List.append_assoc]
        simp [parseValue, ihf.2.1 xs rest hfx hwfx]
      | obj fs =>
        show parseValue (f + 1) (('{' :: (serializeFields fs ++ ['}'])) ++ rest) = _
        have hfx : jfuelFields fs ≤ f := by simp [jfuel] at hf; omega
        have hwfx : wfFields fs = true := hwf
        rw [List.cons_append, List.append_assoc]
        simp [parseValue, ihf.2.2 fs rest hfx hwfx]
    · -- array elements
      cases xs with
      | nil =>
        show parseElems (f + 1) ([] ++ ']' :: rest) = _
        simp [parseElems]
      | cons x xs =>
        obtain ⟨c, t, hct, hc1, hc2, hc3⟩ := serialize_head x
        have hfx : jfuel x ≤ f := by simp [jfuelElems] at hf; omega
        have hfxs : jfuelElems xs ≤ f := by simp [jfuelElems] at hf; omega
        have hwfx : wfJson x = true := by simp [wfElems] at hwf; exact hwf.1
        have hwfxs : wfElems xs = true := by simp [wfElems] at hwf; exact hwf.2
        show parseElems (f + 1)
          ((serialize x ++ (if xs.isEmpty then [] else [',']) ++ serializeElems xs)
            ++ ']' :: rest) = _
        cases xs with
        | nil =>
          have hval := ihf.1 x (']' :: rest) hfx hwfx (by rfl)
          rw [hct] at hval ⊢
          simp only [List.isEmpty_nil, if_pos, List.append_nil, serializeElems,
            List.cons_append, List.append_assoc, List.nil_append]
          rw [parseElems]
          simp only [List.cons_append] at hval
          simp [hc1, hval]
        | cons y ys =>
          have hval := ihf.1 x (',' :: (serializeElems (y :: ys) ++ ']' :: rest))
            hfx hwfx (by rfl)
          have helems := ihf.2.1 (y :: ys) rest hfxs hwfxs
          rw [hct] at hval ⊢
          simp only [List.isEmpty_cons, if_neg, if_false, List.cons_append,
            List.append_assoc, List.nil_append]
          rw [parseElems]
          simp only [List.cons_append, List.append_assoc] at hval
          simp [hc1, hval, helems]
    · -- object fields
      cases fs with
      | nil =>
        show parseFieldsP (f + 1) ([] ++ '}' :: rest) = _
        simp [parseFieldsP]
      | cons kv fs =>
        obtain ⟨k, v⟩ := kv
        have hfv : jfuel v ≤ f := by simp [jfuelFields] at hf; omega
        have hffs : jfuelFields fs ≤ f := by simp [jfuelFields] at hf; omega
        have hwfk : wfStr k = true := by simp [wfFields] at hwf; exact hwf.1.1
        have hwfv : wfJson v = true := by simp [wfFields] at hwf; exact hwf.1.2
        have hwffs : wfFields fs = true := by simp [wfFields] at hwf; exact hwf.2
        show parseFieldsP (f + 1)
          (((serStr k ++ ':' :: serialize v)
            ++ (if fs.isEmpty then [] else [',']) ++ serializeFields fs)
            ++ '}' :: rest) = _
        cases fs with
        | nil =>
          have hval := ihf.1 v ('}' :: rest) hfv hwfv (by rfl)
          rw [serStr]
          simp only [List.isEmpty_nil, if_pos, List.append_nil, serializeFields,
            List.cons_append, List.append_assoc, List.nil_append]
          rw [parseFieldsP]
          have hsb := parseStringBody_closed k
            (':' :: (serialize v ++ '}' :: rest)) hwfk
          simp only [List.cons_append, List.append_assoc] at hsb hval
          simp [hsb, hval]
        | cons kv2 fs2 =>
          have hval := ihf.1 v
            (',' :: (serializeFields (kv2 :: fs2) ++ '}' :: rest)) hfv hwfv (by rfl)
          have hflds := ihf.2.2 (kv2 :: fs2) rest hffs hwffs
          rw [serStr]
          simp only [List.isEmpty_cons, if_neg, if_false, List.cons_append,
            List.append_assoc, List.nil_append]
          rw [parseFieldsP]
          have hsb := parseStringBody_closed k
            (':' :: (serialize v ++ ',' :: (serializeFields (kv2 :: fs2) ++ '}' :: rest)))
            hwfk
          simp only [List.cons_append, List.append_assoc] at hsb hval
          simp [hsb, hval, hflds]

theorem intChars_ne_nil (i : Int) : intChars i ≠ [] := by
  rw [intChars]
  by_cases h : i < 0 <;> simp [h, natDigits_ne_nil]

theorem serialize_ne_nil (m : Json) : serialize m ≠ [] := by
  obtain ⟨c, t, hct, _⟩ := serialize_head m
  simp [hct]

theorem jfuel_le_serialize_aux : ∀ n : Nat,
    (∀ m : Json, sizeOf m ≤ n → jfuel m ≤ (serialize m).length) ∧
    (∀ xs : List Json, sizeOf xs ≤ n →
      jfuelElems xs ≤ (serializeElems xs).length + 1) ∧
    (∀ fs : List (List Char × Json), sizeOf fs ≤ n →
      jfuelFields fs ≤ (serializeFields fs).length + 1) := by
  intro n
  induction n using Nat.strong_induction_on with
  | _ n ih =>
  refine ⟨fun m hm => ?_, fun xs hxs => ?_, fun fs hfs => ?_⟩
  · cases m with
    | null => simp [jfuel, serialize]
    | bool b => cases b <;> simp [jfuel, serialize]
    | num i =>
      have : intChars i ≠ [] := intChars_ne_nil i
      have : 1 ≤ (intChars i).length := List.length_pos.mpr this
      show jfuel (.num i) ≤ (intChars i).length
      simp [jfuel]; omega
    | str s => simp [jfuel, serialize, serStr]
    | arr xs =>
      have hsz : sizeOf xs < n := by
        have : 1 + sizeOf xs ≤ n := by simpa using hm
        omega
      have hxs := (ih (sizeOf xs) hsz).2.1 xs le_rfl
      show 1 + jfuelElems xs ≤ ('[' :: (serializeElems xs ++ [']'])).length
      simp only [List.length_cons, List.length_append, List.length_singleton]
      omega
    | obj fs =>
      have hsz : sizeOf fs < n := by
        have : 1 + sizeOf fs ≤ n := by simpa using hm
        omega
      have hfs := (ih (sizeOf fs) hsz).2.2 fs le_rfl
      show 1 + jfuelFields fs ≤ ('{' :: (serializeFields fs ++ ['}'])).length
      simp only [List.length_cons, List.length_append, List.length_singleton]
      omega
  · cases xs with
    | nil => simp [jfuelElems, serializeElems]
    | cons x xs =>
      have hszx : sizeOf x < n := by
        have : 1 + sizeOf x + sizeOf xs ≤ n := by simpa using hxs
        have := @List.cons.sizeOf_spec Json _ x xs
        omega
      have hszxs : sizeOf xs < n := by
        have : 1 + sizeOf x + sizeOf xs ≤ n := by simpa using hxs
        have hx1 : 1 ≤ sizeOf x := by cases x <;> simp
        omega
      have ih1 := (ih (sizeOf x) hszx).1 x le_rfl
      have ih2 := (ih (sizeOf xs) hszxs).2.1 xs le_rfl
      have hne : 1 ≤ (serialize x).length := List.length_pos.mpr (serialize_ne_nil x)
      show 1 + max (jfuel x) (jfuelElems xs)
          ≤ (serialize x ++ (if xs.isEmpty then [] else [',']) ++ serializeElems xs).length + 1
      cases xs with
      | nil =>
        simp only [List.isEmpty_nil, if_pos, List.append_nil, serializeElems,
          List.length_append, List.length_nil, jfuelElems]
        omega
      | cons y ys =>
        simp only [List.isEmpty_cons, if_neg, if_false, List.length_append,
          List.length_singleton] at ih2 ⊢
        omega
  · cases fs with
    | nil => simp [jfuelFields, serializeFields]
    | cons kv fs =>
      obtain ⟨k, v⟩ := kv
      have hszv : sizeOf v < n := by
        have : 1 + (1 + sizeOf k + sizeOf v) + sizeOf fs ≤ n := by simpa using hfs
        omega
      have hszfs : sizeOf fs < n := by
        have : 1 + (1 + sizeOf k + sizeOf v) + sizeOf fs ≤ n := by simpa using hfs
        omega
      have ih1 := (ih (sizeOf v) hszv).1 v le_rfl
      have ih2 := (ih (sizeOf fs) hszfs).2.2 fs le_rfl
      show 1 + max (jfuel v) (jfuelFields fs)
          ≤ ((serStr k ++ ':' :: serialize v)
              ++ (if fs.isEmpty then [] else [',']) ++ serializeFields fs).length + 1
      cases fs with
      | nil =>
        simp only [List.isEmpty_nil, if_pos, List.append_nil, serializeFields,
          List.length_append, List.length_nil, serStr, List.length_cons,
          jfuelFields]
        omega
      | cons kv2 fs2 =>
        simp only [List.isEmpty_cons, if_neg, if_false, List.length_append,
          List.length_singleton, serStr, List.length_cons] at ih2 ⊢
        omega

/-- `JSON.parse` inverts `JSON.stringify` on well-formed values. -/
theorem parseJson_serialize (m : Json) (h : wfJson m = true) :
    parseJson (serialize m) = some m := by
  have hf : jfuel m ≤ (serialize m).length + 1 := by
    have := (jfuel_le_serialize_aux (sizeOf m)).1 m le_rfl
    omega
  have hrt := (parse_roundtrip_aux ((serialize m).length + 1)).1 m [] hf h (by rfl)
  rw [List.append_nil] at hrt
  simp [parseJson, hrt]

/-! ## The framing codec (`LSPClient.processBuffer`)

The accumulation buffer is a JavaScript string, modelled as `List Char`.
`processBuffer` repeatedly: finds the first match of the header pattern
`Content-Length: (\d+)\r\n` (keeping only the digit capture), finds the
first occurrence of `\r\n\r\n` via `indexOf`, and if the buffer holds
`headerEnd + 4 + contentLength` characters, extracts the body by
character count, consumes it, and dispatches it. -/

def headerLit : List Char :=
  ['C', 'o', 'n', 't', 'e', 'n', 't', '-', 'L', 'e', 'n', 'g', 't', 'h', ':', ' ']

def crlf2 : List Char := ['\r', '\n', '\r', '\n']

def stripLead : List Char → List Char → Option (List Char)
  | [], s => some s
  | _ :: _, [] => none
  | p :: ps, c :: cs => if p = c then stripLead ps cs else none

/-- One attempt of the header regex at the current position: the literal
`Content-Length: `, a greedy nonempty digit capture, then `\r\n`. -/
def matchHeaderAt (s : List Char) : Option (List Char) :=
  match stripLead headerLit s with
  | none => none
  | some rest =>
    let ds := rest.takeWhile isDigitCh
    if ds.isEmpty then none
    else
      match rest.dropWhile isDigitCh with
      | c1 :: c2 :: _ =>
          if c1 = '\r' then if c2 = '\n' then some ds else none else none
      | _ => none

/-- `buffer.match(/Content-Length: (\d+)\r\n/)`: leftmost match, digit
capture only (the source uses only `headerMatch[1]`). -/
def findHeaderDigits : List Char → Option (List Char)
  | [] => none
  | c :: cs =>
    match matchHeaderAt (c :: cs) with
    | some ds => some ds
    | none => findHeaderDigits cs

/-- The decode loop of `LSPClient.processBuffer`, returning the extracted
frame bodies in dispatch order and the remaining buffer.  Each iteration
consumes at least four characters, so `buffer.length + 1` fuel always
suffices. -/
def processBuffer : Nat → List Char → List (List Char) × List Char
  | 0, buf => ([], buf)
  | fuel + 1, buf =>
    match findHeaderDigits buf with
    | none => ([], buf)
    | some ds =>
      match indexOfSeq crlf2 buf with
      | none => ([], buf)
      | some headerEnd =>
        let contentLength := parseDigits ds
        let messageStart := headerEnd + 4
        let messageEnd := messageStart + contentLength
        if buf.length < messageEnd then ([], buf)
        else
          let text := (buf.drop messageStart).take contentLength
          let pr := processBuffer fuel (buf.drop messageEnd)
          (text :: pr.1, pr.2)

/-! ## The client session (`LSPClient`) -/

inductive RejectReason where
  | timeout
  | lspError (code : Option Json) (msg : Option Json) (data : Option Json)
  | connectionClosed

inductive Outcome where
  | resolved (v : Option Json)
  | rejected (r : RejectReason)

inductive LogEvent where
  | parseFailed (text : List Char)
  | unknownResponse (idv : Json)
  | unknownMessage
  | notifDispatched (methodv : Json)

structure ClientState where
  nextId : Int
  pending : List Int
  outcomes : List (Int × Outcome)
  buffer : List Char
  frames : List (List Char)
  log : List LogEvent
  sent : List (List Char)

def freshClient : ClientState :=
  { nextId := 1, pending := [], outcomes := [], buffer := [],
    frames := [], log := [], sent := [] }

def jGet (fs : List (List Char × Json)) (k : List Char) : Option Json :=
  match fs.reverse.find? (fun p => p.1 == k) with
  | some p => some p.2
  | none => none

def hasKey (fs : List (List Char × Json)) (k : List Char) : Bool :=
  (jGet fs k).isSome

def jsTruthy : Json → Bool
  | .null => false
  | .bool b => b
  | .num i => decide (i ≠ 0)
  | .str s => !s.isEmpty
  | .arr _ => true
  | .obj _ => true

def idKey : List Char := ['i', 'd']
def resultKey : List Char := ['r', 'e', 's', 'u', 'l', 't']
def errorKey : List Char := ['e', 'r', 'r', 'o', 'r']
def methodKey : List Char := ['m', 'e', 't', 'h', 'o', 'd']
def codeKey : List Char := ['c', 'o', 'd', 'e']
def messageKey : List Char := ['m', 'e', 's', 's', 'a', 'g', 'e']
def dataKey : List Char := ['d', 'a', 't', 'a']

inductive MsgClass where
  | response (idv : Json) (res : Option Json) (err : Option Json)
  | notification (methodv : Json)
  | unknown
  | primitiveIn

/-- `LSPClient.handleMessage` shape probing: `'id' in message` and
friends.  On a primitive (non-object) value the `in` operator throws a
`TypeError`, which the caller's catch block treats like a parse
failure. -/
def classify : Json → MsgClass
  | .obj fs =>
    if hasKey fs idKey && (hasKey fs resultKey || hasKey fs errorKey) then
      .response ((jGet fs idKey).getD .null) (jGet fs resultKey) (jGet fs errorKey)
    else if hasKey fs methodKey && !hasKey fs idKey then
      .notification ((jGet fs methodKey).getD .null)
    else .unknown
  | .arr _ => .unknown
  | _ => .primitiveIn

def lookupOutcome (st : ClientState) (i : Int) : Option Outcome :=
  match st.outcomes.find? (fun p => p.1 == i) with
  | some p => some p.2
  | none => none

/-- `LSPClient.handleResponse`: look up the pending entry by identifier;
if absent, log and return; otherwise delete it and settle the future,
rejecting with a structured error when `response.error` is truthy. -/
def handleResponseJ (st : ClientState) (idv : Json) (res err : Option Json) :
    ClientState :=
  match idv with
  | .num i =>
    if i ∈ st.pending then
      let st1 := { st with pending := st.pending.erase i }
      match err with
      | some e =>
        if jsTruthy e then
          match e with
          | .obj efs =>
              { st1 with outcomes := st1.outcomes
                  ++ [(i, .rejected (.lspError (jGet efs codeKey)
                        (jGet efs messageKey) (jGet efs dataKey)))] }
          | _ =>
              { st1 with outcomes := st1.outcomes
                  ++ [(i, .rejected (.lspError none none none))] }
        else { st1 with outcomes := st1.outcomes ++ [(i, .resolved res)] }
      | none => { st1 with outcomes := st1.outcomes ++ [(i, .resolved res)] }
    else { st with log := st.log ++ [.unknownResponse idv] }
  | _ => { st with log := st.log ++ [.unknownResponse idv] }

/-- Processing of one extracted frame body: `JSON.parse` plus
`handleMessage`, both inside the same try/catch. -/
def handleFrameText (st : ClientState) (text : List Char) : ClientState :=
  match parseJson text with
  | none =>
      { st with frames := st.frames ++ [text], log := st.log ++ [.parseFailed text] }
  | some j =>
    match classify j with
    | .primitiveIn =>
        { st with frames := st.frames ++ [text], log := st.log ++ [.parseFailed text] }
    | .unknown =>
        { st with frames := st.frames ++ [text], log := st.log ++ [.unknownMessage] }
    | .notification m =>
        { st with frames := st.frames ++ [text], log := st.log ++ [.notifDispatched m] }
    | .response idv res err =>
        handleResponseJ { st with frames := st.frames ++ [text] } idv res err

/-- The stream `data` handler: append the chunk to the buffer, then run
`processBuffer` and dispatch every complete frame. -/
def onData (st : ClientState) (chunk : List Char) : ClientState :=
  (processBuffer ((st.buffer ++ chunk).length + 1) (st.buffer ++ chunk)).1.foldl
    handleFrameText
    { st with
        buffer := (processBuffer ((st.buffer ++ chunk).length + 1)
          (st.buffer ++ chunk)).2 }

def charUtf8Size (c : Char) : Nat :=
  if c.toNat < 128 then 1
  else if c.toNat < 2048 then 2
  else if c.toNat < 65536 then 3
  else 4

/-- `Buffer.byteLength(content, 'utf-8')`. -/
def utf8Len (s : List Char) : Nat := (s.map charUtf8Size).sum

/-- `LSPClient.sendMessage`: header with the UTF-8 byte length, then the
serialized content. -/
def sendFrame (content : List Char) : List Char :=
  headerLit ++ natDigits (utf8Len content) ++ crlf2 ++ content

/-- A frame whose `Content-Length` is the character count of its body
(for ASCII bodies this is what `sendMessage` emits). -/
def mkHeader (n : Nat) : List Char := headerLit ++ natDigits n ++ crlf2

def mkFrame (body : List Char) : List Char := mkHeader body.length ++ body

/-- The JSON-RPC request object built by `LSPClient.request` (field
order follows the object literal; an absent `params` is dropped by
`JSON.stringify`). -/
def requestJson (id : Int) (method : List Char) (params : Option Json) : Json :=
  .obj ([(['j','s','o','n','r','p','c'], .str ['2','.','0']),
         (idKey, .num id),
         (methodKey, .str method)]
        ++ (match params with
            | some p => [(['p','a','r','a','m','s'], p)]
            | none => []))

/-- `LSPClient.request`: allocate `nextId` (post-increment), register the
pending entry, transmit the frame, return the identifier. -/
def request (st : ClientState) (method : List Char) (params : Option Json) :
    ClientState × Int :=
  let id := st.nextId
  let content := serialize (requestJson id method params)
  ({ st with
      nextId := st.nextId + 1,
      pending := st.pending ++ [id],
      sent := st.sent ++ [sendFrame content] }, id)

/-- The timeout timer of `withTimeout` racing `request`'s promise: if the
future is already settled the rejection is ignored; otherwise the future
rejects with a `TimeoutError` and `request`'s catch block deletes the
pending entry. -/
def timeoutFire (st : ClientState) (i : Int) : ClientState :=
  match lookupOutcome st i with
  | some _ => st
  | none =>
      { st with pending := st.pending.erase i,
                outcomes := st.outcomes ++ [(i, .rejected .timeout)] }

/-- A sequence of `request` calls, collecting the identifiers assigned. -/
def runRequests : ClientState → List (List Char) → ClientState × List Int
  | st, [] => (st, [])
  | st, m :: ms =>
    let p1 := request st m none
    let p2 := runRequests p1.1 ms
    (p2.1, p1.2 :: p2.2)

/-! ## Decoder lemmas -/

theorem stripLead_self (p r : List Char) : stripLead p (p ++ r) = some r := by
  induction p with
  | nil => rfl
  | cons x xs ih => simp [stripLead, ih]

theorem stripLead_some (p : List Char) : ∀ s r, stripLead p s = some r → s = p ++ r := by
  induction p with
  | nil => intro s r h; simpa [stripLead] using h
  | cons x xs ih =>
    intro s r h
    cases s with
    | nil => simp [stripLead] at h
    | cons c cs =>
      by_cases hx : x = c
      · subst hx
        simp only [stripLead, if_pos] at h
        rw [ih cs r h]
        rfl
      · simp [stripLead, hx] at h

theorem matchHeaderAt_mkHeader (n : Nat) (payload : List Char) :
    matchHeaderAt (mkHeader n ++ payload) = some (natDigits n) := by
  have h1 : mkHeader n ++ payload
      = headerLit ++ (natDigits n ++ ('\r' :: '\n' :: '\r' :: '\n' :: payload)) := by
    simp [mkHeader, crlf2]
  rw [h1, matchHeaderAt, stripLead_self]
  have htd := takeWhile_append_of_all isDigitCh (natDigits n) '\r'
    ('\n' :: '\r' :: '\n' :: payload) (natDigits_all_digits n) (by decide)
  simp [htd.1, htd.2, natDigits_ne_nil, List.isEmpty_iff]

theorem findHeaderDigits_mkHeader (n : Nat) (payload : List Char) :
    findHeaderDigits (mkHeader n ++ payload) = some (natDigits n) := by
  have hm := matchHeaderAt_mkHeader n payload
  unfold mkHeader headerLit at hm ⊢
  simp only [List.cons_append, List.nil_append] at hm ⊢
  simp only [findHeaderDigits, hm]

theorem leadsWith_exists (p : List Char) : ∀ s, leadsWith p s = true → ∃ r, s = p ++ r := by
  induction p with
  | nil => intro s _; exact ⟨s, rfl⟩
  | cons x xs ih =>
    intro s h
    cases s with
    | nil => simp [leadsWith] at h
    | cons c cs =>
      simp only [leadsWith, Bool.and_eq_true, decide_eq_true_eq] at h
      obtain ⟨r, hr⟩ := ih cs h.2
      exact ⟨r, by rw [h.1, hr]; rfl⟩

theorem matchHeaderAt_some_mem_lf (s ds : List Char)
    (h : matchHeaderAt s = some ds) : '\n' ∈ s := by
  unfold matchHeaderAt at h
  cases hs : stripLead headerLit s with
  | none => rw [hs] at h; simp at h
  | some rest =>
    rw [hs] at h
    have hsr : s = headerLit ++ rest := stripLead_some _ _ _ hs
    by_cases he : (rest.takeWhile isDigitCh).isEmpty
    · simp [he] at h
    · simp only [he, if_neg, if_false, Bool.false_eq_true, not_false_iff] at h
      cases hd : rest.dropWhile isDigitCh with
      | nil => rw [hd] at h; simp at h
      | cons c1 tl =>
        cases tl with
        | nil => rw [hd] at h; simp at h
        | cons c2 tl2 =>
          rw [hd] at h
          by_cases h1 : c1 = '\r'
          · by_cases h2 : c2 = '\n'
            · subst h2
              have hmem : '\n' ∈ rest :=
                (List.dropWhile_sublist isDigitCh).mem (by rw [hd]; simp)
              rw [hsr]
              exact List.mem_append.mpr (Or.inr hmem)
            · simp [h1, h2] at h
          · simp [h1] at h

theorem findHeaderDigits_some_mem_lf (s : List Char) :
    ∀ ds, findHeaderDigits s = some ds → '\n' ∈ s := by
  induction s with
  | nil => intro ds h; simp [findHeaderDigits] at h
  | cons c cs ih =>
    intro ds h
    simp only [findHeaderDigits] at h
    cases hm : matchHeaderAt (c :: cs) with
    | some ds2 => exact matchHeaderAt_some_mem_lf _ _ hm
    | none =>
      rw [hm] at h
      exact List.mem_cons_of_mem _ (ih ds h)

theorem findHeaderDigits_eq_none (s : List Char) (h : '\n' ∉ s) :
    findHeaderDigits s = none := by
  cases hfd : findHeaderDigits s with
  | none => rfl
  | some ds => exact absurd (findHeaderDigits_some_mem_lf s ds hfd) h

theorem leadsWith_count_le (p s : List Char) (c : Char)
    (h : leadsWith p s = true) : p.count c ≤ s.count c := by
  obtain ⟨r, hr⟩ := leadsWith_exists p s h
  rw [hr, List.count_append]
  omega

theorem indexOfSeq_some_count (pat s : List Char) (c : Char) :
    ∀ i, indexOfSeq pat s = some i → pat.count c ≤ s.count c := by
  induction s with
  | nil =>
    intro i h
    unfold indexOfSeq at h
    by_cases hl : leadsWith pat []
    · exact leadsWith_count_le pat [] c hl
    · simp [hl] at h
  | cons x xs ih =>
    intro i h
    unfold indexOfSeq at h
    by_cases hl : leadsWith pat (x :: xs)
    · exact leadsWith_count_le _ _ c hl
    · simp only [hl, if_neg, if_false, Bool.false_eq_true, not_false_iff,
        Option.map_eq_some'] at h
      obtain ⟨j, hj, _⟩ := h
      calc pat.count c ≤ xs.count c := ih j hj
        _ ≤ (x :: xs).count c := by
            rw [List.count_cons]
            omega

theorem indexOfSeq_crlf2_none (s : List Char) (h : s.count '\n' < 2) :
    indexOfSeq crlf2 s = none := by
  cases hix : indexOfSeq crlf2 s with
  | none => rfl
  | some i =>
    have hc := indexOfSeq_some_count crlf2 s '\n' i hix
    rw [show (crlf2.count '\n') = 2 from by decide] at hc
    omega

theorem indexOfSeq_crlf2_at (xs r : List Char) (hxs : ∀ c ∈ xs, c ≠ '\r') :
    indexOfSeq crlf2 ((xs ++ crlf2) ++ r) = some xs.length := by
  induction xs with
  | nil =>
    have hlw : leadsWith crlf2 ('\r' :: '\n' :: '\r' :: '\n' :: r) = true :=
      leadsWith_append crlf2 r
    show indexOfSeq crlf2 ('\r' :: '\n' :: '\r' :: '\n' :: r) = some 0
    simp [indexOfSeq, hlw]
  | cons x xs ih =>
    have hx : ('\r' : Char) ≠ x := Ne.symm (hxs x (List.mem_cons_self _ _))
    have hlw : leadsWith crlf2 (x :: ((xs ++ crlf2) ++ r)) = false := by
      simp [crlf2, leadsWith, hx]
    show indexOfSeq crlf2 (x :: ((xs ++ crlf2) ++ r)) = some (xs.length + 1)
    rw [indexOfSeq]
    simp only [hlw, Bool.false_eq_true, if_false]
    rw [ih (fun c hc => hxs c (List.mem_cons_of_mem _ hc))]
    rfl

theorem processBuffer_nil (f : Nat) : processBuffer f [] = ([], []) := by
  cases f with
  | zero => rfl
  | succ f => simp [processBuffer, findHeaderDigits]

theorem indexOfSeq_mkHeader (n : Nat) (payload : List Char) :
    indexOfSeq crlf2 (mkHeader n ++ payload)
      = some (headerLit.length + (natDigits n).length) := by
  have hnr : ∀ c ∈ headerLit ++ natDigits n, c ≠ '\r' := by
    intro c hc
    rcases List.mem_append.mp hc with hc | hc
    · exact (show ∀ x ∈ headerLit, x ≠ '\r' by decide) c hc
    · have hd := natDigits_all_digits n c hc
      intro he
      subst he
      exact absurd hd (by decide)
  have h := indexOfSeq_crlf2_at (headerLit ++ natDigits n) payload hnr
  rw [show ((headerLit ++ natDigits n) ++ crlf2) ++ payload = mkHeader n ++ payload
    from by simp [mkHeader]] at h
  rw [h, List.length_append]

/-- One complete header with `Content-Length: n` and at least `n` more
characters: the decode loop extracts exactly the next `n` characters and
continues on the remainder. -/
theorem processBuffer_frame (f n : Nat) (payload : List Char)
    (h : n ≤ payload.length) :
    processBuffer (f + 1) (mkHeader n ++ payload)
      = ((payload.take n) :: (processBuffer f (payload.drop n)).1,
         (processBuffer f (payload.drop n)).2) := by
  have hmk : (mkHeader n).length = headerLit.length + (natDigits n).length + 4 := by
    simp [mkHeader, crlf2]
    omega
  have hlen : ¬ ((mkHeader n ++ payload).length
      < headerLit.length + (natDigits n).length + 4 + n) := by
    rw [List.length_append, hmk]
    omega
  have hdrop1 : (mkHeader n ++ payload).drop
      (headerLit.length + (natDigits n).length + 4) = payload :=
    List.drop_left' hmk
  have hdrop2 : (mkHeader n ++ payload).drop
      (headerLit.length + (natDigits n).length + 4 + n) = payload.drop n := by
    rw [show headerLit.length + (natDigits n).length + 4 + n
      = (mkHeader n).length + n from by rw [hmk]]
    exact List.drop_append n
  simp only [processBuffer, findHeaderDigits_mkHeader, indexOfSeq_mkHeader,
    parseDigits_natDigits, hlen, if_false, hdrop1, hdrop2]

/-- No proper prefix of a well-formed frame yields a complete message:
the loop leaves the buffer untouched. -/
theorem processBuffer_precut (f k : Nat) (body : List Char)
    (hk : k < (mkFrame body).length) :
    processBuffer f ((mkFrame body).take k) = ([], (mkFrame body).take k) := by
  cases f with
  | zero => rfl
  | succ f =>
    set p := (mkFrame body).take k with hp
    by_cases hcase : k < (mkHeader body.length).length
    · -- the prefix is short of the full blank line: at most one newline,
      -- so `indexOf("\r\n\r\n")` fails and the loop breaks
      have hsplit : mkFrame body
          = ((headerLit ++ natDigits body.length) ++ ['\r', '\n', '\r'])
              ++ ('\n' :: body) := by
        simp [mkFrame, mkHeader, crlf2]
      have hklen : k ≤ ((headerLit ++ natDigits body.length) ++ ['\r', '\n', '\r']).length := by
        have : (mkHeader body.length).length
            = ((headerLit ++ natDigits body.length) ++ ['\r', '\n', '\r']).length + 1 := by
          simp [mkHeader, crlf2]
          omega
        omega
      have hpre : p = (((headerLit ++ natDigits body.length) ++ ['\r', '\n', '\r'])).take k := by
        rw [hp, hsplit, List.take_append_of_le_length hklen]
      have hcount : p.count '\n' < 2 := by
        rw [hpre]
        have hsub := (List.take_sublist k
          ((headerLit ++ natDigits body.length) ++ ['\r', '\n', '\r'])).count_le '\n'
        have hhd : (headerLit ++ natDigits body.length).count '\n' = 0 := by
          rw [List.count_eq_zero]
          intro hmem
          rcases List.mem_append.mp hmem with hmem | hmem
          · revert hmem; decide
          · exact absurd (natDigits_all_digits _ _ hmem) (by decide)
        rw [List.count_append, hhd] at hsub
        rw [show (['\r', '\n', '\r'] : List Char).count '\n' = 1 from by decide] at hsub
        omega
      have hio : indexOfSeq crlf2 p = none := indexOfSeq_crlf2_none p hcount
      cases hfd : findHeaderDigits p with
      | none => simp [processBuffer, hfd]
      | some ds => simp [processBuffer, hfd, hio]
    · -- the whole header is present but the body is incomplete: the
      -- length check fails and the loop breaks
      push_neg at hcase
      obtain ⟨j, hj⟩ : ∃ j, k = (mkHeader body.length).length + j :=
        ⟨k - (mkHeader body.length).length, by omega⟩
      have hjlt : j < body.length := by
        rw [hj] at hk
        rw [mkFrame, List.length_append] at hk
        omega
      have hpre : p = mkHeader body.length ++ body.take j := by
        rw [hp, hj, mkFrame, List.take_append]
      have hlen2 : p.length < headerLit.length + (natDigits body.length).length
          + 4 + body.length := by
        rw [hpre, List.length_append, List.length_take]
        have : (mkHeader body.length).length
            = headerLit.length + (natDigits body.length).length + 4 := by
          simp [mkHeader, crlf2]
          omega
        omega
      rw [hpre]
      simp only [processBuffer, findHeaderDigits_mkHeader, indexOfSeq_mkHeader,
        parseDigits_natDigits]
      rw [if_pos]
      rw [← hpre]
      exact hlen2

theorem processBuffer_one (f : Nat) (body : List Char) :
    processBuffer (f + 1) (mkFrame body) = ([body], []) := by
  rw [mkFrame, processBuffer_frame f body.length body le_rfl]
  simp [List.take_length, List.drop_length, processBuffer_nil]

theorem processBuffer_two (f : Nat) (b1 b2 : List Char) :
    processBuffer (f + 2) (mkFrame b1 ++ mkFrame b2) = ([b1, b2], []) := by
  have h1 : mkFrame b1 ++ mkFrame b2 = mkHeader b1.length ++ (b1 ++ mkFrame b2) := by
    simp [mkFrame]
  rw [h1]
  rw [show f + 2 = (f + 1) + 1 from rfl]
  rw [processBuffer_frame (f + 1) b1.length (b1 ++ mkFrame b2) (by simp)]
  rw [List.take_left, List.drop_left]
  rw [processBuffer_one f b2]

theorem handleResponseJ_frames (st : ClientState) (idv : Json)
    (res err : Option Json) : (handleResponseJ st idv res err).frames = st.frames := by
  unfold handleResponseJ
  repeat first | rfl | split

theorem handleResponseJ_buffer (st : ClientState) (idv : Json)
    (res err : Option Json) : (handleResponseJ st idv res err).buffer = st.buffer := by
  unfold handleResponseJ
  repeat first | rfl | split

theorem handleFrameText_frames (st : ClientState) (text : List Char) :
    (handleFrameText st text).frames = st.frames ++ [text] := by
  unfold handleFrameText
  repeat first | rfl | (rw [handleResponseJ_frames]) | split

theorem handleFrameText_buffer (st : ClientState) (text : List Char) :
    (handleFrameText st text).buffer = st.buffer := by
  unfold handleFrameText
  repeat first | rfl | (rw [handleResponseJ_buffer]) | split

theorem onData_empty (st : ClientState) (h : st.buffer = []) : onData st [] = st := by
  unfold onData
  rw [h]
  simp only [List.nil_append, List.append_nil]
  rw [processBuffer_nil]
  show { st with buffer := [] } = st
  rw [← h]

theorem onData_precut (st : ClientState) (chunk body : List Char) (k : Nat)
    (hbc : st.buffer ++ chunk = (mkFrame body).take k)
    (hk : k < (mkFrame body).length) :
    onData st chunk = { st with buffer := (mkFrame body).take k } := by
  unfold onData
  rw [hbc, processBuffer_precut _ k body hk]
  rfl

theorem onData_fullframe (st : ClientState) (chunk body : List Char)
    (hbc : st.buffer ++ chunk = mkFrame body) :
    onData st chunk = handleFrameText { st with buffer := [] } body := by
  unfold onData
  rw [hbc, processBuffer_one]
  rfl

theorem mkFrame_length_pos (body : List Char) : 0 < (mkFrame body).length := by
  simp [mkFrame, mkHeader, crlf2, headerLit]

theorem onData_twoframes (st : ClientState) (chunk b1 b2 : List Char)
    (hbc : st.buffer ++ chunk = mkFrame b1 ++ mkFrame b2) :
    onData st chunk
      = handleFrameText (handleFrameText { st with buffer := [] } b1) b2 := by
  unfold onData
  rw [hbc]
  obtain ⟨g, hg⟩ : ∃ g, (mkFrame b1 ++ mkFrame b2).length + 1 = g + 2 := by
    have := mkFrame_length_pos b1
    exact ⟨(mkFrame b1 ++ mkFrame b2).length - 1, by simp [List.length_append]; omega⟩
  rw [hg, processBuffer_two]
  rfl

theorem isDigitCh_lt128 (c : Char) (h : isDigitCh c = true) : c.toNat < 128 := by
  simp only [isDigitCh, Bool.and_eq_true, decide_eq_true_eq] at h
  omega

theorem wfChar_lt128 (c : Char) (h : wfChar c = true) : c.toNat < 128 := by
  simp only [wfChar, Bool.and_eq_true, decide_eq_true_eq] at h
  exact h.1.1.2

theorem intChars_ascii (i : Int) : ∀ c ∈ intChars i, c.toNat < 128 := by
  intro c hc
  rw [intChars] at hc
  by_cases h : i < 0
  · rw [if_pos h] at hc
    rcases List.mem_cons.mp hc with hc | hc
    · subst hc; decide
    · exact isDigitCh_lt128 c (natDigits_all_digits _ c hc)
  · rw [if_neg h] at hc
    exact isDigitCh_lt128 c (natDigits_all_digits _ c hc)

theorem serialize_ascii_aux : ∀ n : Nat,
    (∀ m, sizeOf m ≤ n → wfJson m = true → ∀ c ∈ serialize m, c.toNat < 128) ∧
    (∀ xs : List Json, sizeOf xs ≤ n → wfElems xs = true →
      ∀ c ∈ serializeElems xs, c.toNat < 128) ∧
    (∀ fs : List (List Char × Json), sizeOf fs ≤ n → wfFields fs = true →
      ∀ c ∈ serializeFields fs, c.toNat < 128) := by
  intro n
  induction n using Nat.strong_induction_on with
  | _ n ih =>
  refine ⟨fun m hm hwf c hc => ?_, fun xs hxs hwf c hc => ?_,
    fun fs hfs hwf c hc => ?_⟩
  · cases m with
    | null => revert hc; revert c; decide
    | bool b => cases b <;> (revert hc; revert c; decide)
    | num i => exact intChars_ascii i c hc
    | str s =>
      rcases List.mem_cons.mp hc with hc | hc
      · subst hc; decide
      · rcases List.mem_append.mp hc with hc | hc
        · exact wfChar_lt128 c (List.all_eq_true.mp hwf c hc)
        · simp only [List.mem_singleton] at hc; subst hc; decide
    | arr xs =>
      have hsz : sizeOf xs < n := by
        have : 1 + sizeOf xs ≤ n := by simpa using hm
        omega
      rcases List.mem_cons.mp hc with hc | hc
      · subst hc; decide
      · rcases List.mem_append.mp hc with hc | hc
        · exact (ih (sizeOf xs) hsz).2.1 xs le_rfl hwf c hc
        · simp only [List.mem_singleton] at hc; subst hc; decide
    | obj fs =>
      have hsz : sizeOf fs < n := by
        have : 1 + sizeOf fs ≤ n := by simpa using hm
        omega
      rcases List.mem_cons.mp hc with hc | hc
      · subst hc; decide
      · rcases List.mem_append.mp hc with hc | hc
        · exact (ih (sizeOf fs) hsz).2.2 fs le_rfl hwf c hc
        · simp only [List.mem_singleton] at hc; subst hc; decide
  · cases xs with
    | nil => simp [serializeElems] at hc
    | cons x xs =>
      simp only [wfElems, Bool.and_eq_true] at hwf
      have hszx : sizeOf x < n := by
        have : 1 + sizeOf x + sizeOf xs ≤ n := by simpa using hxs
        omega
      have hszxs : sizeOf xs < n := by
        have : 1 + sizeOf x + sizeOf xs ≤ n := by simpa using hxs
        have hx1 : 1 ≤ sizeOf x := by cases x <;> simp
        omega
      rcases List.mem_append.mp hc with hc | hc
      · rcases List.mem_append.mp hc with hc | hc
        · exact (ih (sizeOf x) hszx).1 x le_rfl hwf.1 c hc
        · by_cases he : xs.isEmpty
          · simp [he] at hc
          · rw [if_neg he] at hc
            simp only [List.mem_singleton] at hc
            subst hc; decide
      · exact (ih (sizeOf xs) hszxs).2.1 xs le_rfl hwf.2 c hc
  · cases fs with
    | nil => simp [serializeFields] at hc
    | cons kv fs =>
      obtain ⟨k, v⟩ := kv
      simp only [wfFields, Bool.and_eq_true] at hwf
      have hszv : sizeOf v < n := by
        have : 1 + (1 + sizeOf k + sizeOf v) + sizeOf fs ≤ n := by simpa using hfs
        omega
      have hszfs : sizeOf fs < n := by
        have : 1 + (1 + sizeOf k + sizeOf v) + sizeOf fs ≤ n := by simpa using hfs
        omega
      rcases List.mem_append.mp hc with hc | hc
      · rcases List.mem_append.mp hc with hc | hc
        · rcases List.mem_append.mp hc with hc | hc
          · rcases List.mem_cons.mp hc with hc | hc
            · subst hc; decide
            · rcases List.mem_append.mp hc with hc | hc
              · exact wfChar_lt128 c (List.all_eq_true.mp hwf.1.1 c hc)
              · simp only [List.mem_singleton] at hc; subst hc; decide
          · rcases List.mem_cons.mp hc with hc | hc
            · subst hc; decide
            · exact (ih (sizeOf v) hszv).1 v le_rfl hwf.1.2 c hc
        · by_cases he : fs.isEmpty
          · simp [he] at hc
          · rw [if_neg he] at hc
            simp only [List.mem_singleton] at hc
            subst hc; decide
      · exact (ih (sizeOf fs) hszfs).2.2 fs le_rfl hwf.2 c hc

theorem serialize_ascii (m : Json) (hwf : wfJson m = true) :
    ∀ c ∈ serialize m, c.toNat < 128 :=
  (serialize_ascii_aux (sizeOf m)).1 m le_rfl hwf

theorem utf8Len_ascii (s : List Char) (h : ∀ c ∈ s, c.toNat < 128) :
    utf8Len s = s.length := by
  induction s with
  | nil => rfl
  | cons c cs ih =>
    have hc : charUtf8Size c = 1 := by
      have := h c (List.mem_cons_self _ _)
      simp [charUtf8Size, this]
    simp only [utf8Len, List.map_cons, List.sum_cons, hc, List.length_cons]
    have := ih (fun x hx => h x (List.mem_cons_of_mem _ hx))
    simp only [utf8Len] at this
    omega

theorem sendFrame_ascii (content : List Char)
    (h : ∀ c ∈ content, c.toNat < 128) : sendFrame content = mkFrame content := by
  unfold sendFrame mkFrame mkHeader
  rw [utf8Len_ascii content h]

/-! ## Claims about the framing codec and correlator -/

/-- **C5** Decoding is chunking-invariant: a frame split across three
separate chunk deliveries reaches exactly the state reached when the
identical frame is delivered in a single chunk, and dispatches its body
exactly once; a single chunk carrying two complete frames dispatches
each exactly once, in order. -/
theorem frame_chunking_invariant (st st2 : ClientState)
    (body b1 b2 s1 s2 s3 : List Char)
    (hbuf : st.buffer = []) (hbuf2 : st2.buffer = [])
    (hsplit : s1 ++ s2 ++ s3 = mkFrame body) :
    onData (onData (onData st s1) s2) s3 = onData st (mkFrame body)
    ∧ (onData st (mkFrame body)).frames = st.frames ++ [body]
    ∧ (onData st (mkFrame body)).buffer = []
    ∧ (onData st2 (mkFrame b1 ++ mkFrame b2)).frames = st2.frames ++ [b1, b2] := by
  have hfull : onData st (mkFrame body) = handleFrameText { st with buffer := [] } body :=
    onData_fullframe st _ body (by rw [hbuf, List.nil_append])
  have htwo : onData st2 (mkFrame b1 ++ mkFrame b2)
      = handleFrameText (handleFrameText { st2 with buffer := [] } b1) b2 :=
    onData_twoframes st2 _ b1 b2 (by rw [hbuf2, List.nil_append])
  refine ⟨?_, ?_, ?_, ?_⟩
  · -- three-way split reaches the same state
    have hlen : s1.length + s2.length + s3.length = (mkFrame body).length := by
      rw [← hsplit]
      simp [List.length_append]
      omega
    have htake1 : (mkFrame body).take s1.length = s1 := by
      rw [← hsplit, List.append_assoc]
      exact List.take_left s1 _
    have htake12 : (mkFrame body).take (s1.length + s2.length) = s1 ++ s2 := by
      rw [← hsplit]
      exact List.take_left' (by rw [List.length_append])
    rcases Nat.lt_or_ge s1.length (mkFrame body).length with hlt1 | hge1
    · have hstep1 : onData st s1 = { st with buffer := s1 } := by
        have := onData_precut st s1 body s1.length
          (by rw [hbuf, List.nil_append, htake1]) hlt1
        rw [htake1] at this
        exact this
      rcases Nat.lt_or_ge (s1.length + s2.length) (mkFrame body).length with hlt12 | hge12
      · have hstep2 : onData { st with buffer := s1 } s2
            = { st with buffer := s1 ++ s2 } := by
          have := onData_precut { st with buffer := s1 } s2 body
            (s1.length + s2.length) (by show s1 ++ s2 = _; rw [htake12]) hlt12
          rw [htake12] at this
          exact this
        have hstep3 : onData { st with buffer := s1 ++ s2 } s3
            = handleFrameText { st with buffer := [] } body := by
          have := onData_fullframe { st with buffer := s1 ++ s2 } s3 body
            (by show (s1 ++ s2) ++ s3 = _; exact hsplit)
          rw [this]
        rw [hstep1, hstep2, hstep3, hfull]
      · -- the first two chunks already form the whole frame; s3 = []
        have h3 : s3 = [] := by
          have := List.length_eq_zero.mp (show s3.length = 0 by omega)
          exact this
        have h12 : s1 ++ s2 = mkFrame body := by
          rw [h3, List.append_nil] at hsplit
          exact hsplit
        have hstep2 : onData { st with buffer := s1 } s2
            = handleFrameText { st with buffer := [] } body := by
          have := onData_fullframe { st with buffer := s1 } s2 body
            (by show s1 ++ s2 = _; exact h12)
          rw [this]
        have hstep3 : onData (handleFrameText { st with buffer := [] } body) s3
            = handleFrameText { st with buffer := [] } body := by
          rw [h3]
          exact onData_empty _ (handleFrameText_buffer _ _)
        rw [hstep1, hstep2, hstep3, hfull]
    · -- the first chunk is already the whole frame; s2 = s3 = []
      have h2 : s2 = [] := List.length_eq_zero.mp (by omega)
      have h3 : s3 = [] := List.length_eq_zero.mp (by omega)
      have h1 : s1 = mkFrame body := by
        rw [h2, h3, List.append_nil, List.append_nil] at hsplit
        exact hsplit
      rw [h1, h2, h3, hfull]
      rw [onData_empty _ (handleFrameText_buffer _ _)]
      exact onData_empty _ (handleFrameText_buffer _ _)
  · rw [hfull, handleFrameText_frames]
  · rw [hfull, handleFrameText_buffer]
  · rw [htwo, handleFrameText_frames, handleFrameText_frames]
    simp

/-- **C5 witness**: a concrete frame split into three chunks. -/
theorem frame_chunking_invariant_witness :
    freshClient.buffer = [] ∧
    (['C'] ++ "ontent-Length: 2\r\n".toList ++ "\r\n{}".toList
      = mkFrame ['{', '}']) ∧
    (onData (onData (onData freshClient ['C'])
        "ontent-Length: 2\r\n".toList) "\r\n{}".toList
      = onData freshClient (mkFrame ['{', '}'])
    ∧ (onData freshClient (mkFrame ['{', '}'])).frames
        = freshClient.frames ++ [['{', '}']]
    ∧ (onData freshClient (mkFrame ['{', '}'])).buffer = []
    ∧ (onData freshClient (mkFrame ['a'] ++ mkFrame ['b'])).frames
        = freshClient.frames ++ [['a'], ['b']]) :=
  ⟨rfl, rfl,
    frame_chunking_invariant freshClient freshClient ['{', '}'] ['a'] ['b']
      ['C'] "ontent-Length: 2\r\n".toList "\r\n{}".toList rfl rfl rfl⟩

/-- **C8** A well-framed message whose body is not valid JSON is logged
and discarded: the state changes only by recording the frame and a
parse-failure log entry (pending requests, outcomes and counters are
untouched), the buffer advances past the frame, and a subsequent frame
in the same stream is processed exactly as it would be alone. -/
theorem malformed_frame_discarded (st : ClientState) (bad good : List Char)
    (hbuf : st.buffer = []) (hbad : parseJson bad = none) :
    onData st (mkFrame bad)
      = { st with
            buffer := []
            frames := st.frames ++ [bad]
            log := st.log ++ [.parseFailed bad] }
    ∧ onData st (mkFrame bad ++ mkFrame good)
      = handleFrameText (onData st (mkFrame bad)) good := by
  have h1 : onData st (mkFrame bad) = handleFrameText { st with buffer := [] } bad :=
    onData_fullframe st _ bad (by rw [hbuf, List.nil_append])
  have h2 : handleFrameText { st with buffer := [] } bad
      = { st with
            buffer := []
            frames := st.frames ++ [bad]
            log := st.log ++ [.parseFailed bad] } := by
    unfold handleFrameText
    rw [hbad]
  constructor
  · rw [h1, h2]
  · have h3 : onData st (mkFrame bad ++ mkFrame good)
        = handleFrameText (handleFrameText { st with buffer := [] } bad) good :=
      onData_twoframes st _ bad good (by rw [hbuf, List.nil_append])
    rw [h3, h1]

/-- **C8 witness**: a frame carrying `notjson`. -/
theorem malformed_frame_discarded_witness :
    freshClient.buffer = [] ∧
    parseJson "notjson".toList = none ∧
    (onData freshClient (mkFrame "notjson".toList)
      = { freshClient with
            buffer := []
            frames := freshClient.frames ++ ["notjson".toList]
            log := freshClient.log ++ [.parseFailed "notjson".toList] }
    ∧ onData freshClient (mkFrame "notjson".toList ++ mkFrame ['1'])
      = handleFrameText (onData freshClient (mkFrame "notjson".toList)) ['1']) :=
  ⟨rfl, rfl, malformed_frame_discarded freshClient "notjson".toList ['1'] rfl rfl⟩

/-- The body of the §8 scenario, 38 characters long. -/
def c9Body : List Char :=
  "\x7b\"jsonrpc\":\"2.0\",\"id\":1,\"result\":\"ok\"\x7d".toList

/-- **C9 counterexample** The scenario as specified: after `request`
assigns identifier 1, delivering `Content-Length: 34\r\n\r\n` followed by
the 38-character body does NOT resolve the future: the decoder extracts
only the first 34 characters, their JSON parse fails and is discarded,
the request stays pending with no outcome, and `ok"}` is left in the
buffer. -/
theorem scenario_34_future_unsettled :
    lookupOutcome (onData (request freshClient ['X'] none).1
        (mkHeader 34 ++ c9Body)) 1 = none
    ∧ (onData (request freshClient ['X'] none).1
        (mkHeader 34 ++ c9Body)).pending = [1]
    ∧ (onData (request freshClient ['X'] none).1
        (mkHeader 34 ++ c9Body)).buffer = "ok\"\x7d".toList :=
  ⟨rfl, rfl, rfl⟩

/-- **C9 (amended)** The scenario with the header matching the body:
after `request` assigns identifier 1, delivering
`Content-Length: 38\r\n\r\n` followed by
`{"jsonrpc":"2.0","id":1,"result":"ok"}` resolves that request's future
to the string `ok` and removes the pending entry. -/
theorem scenario_38_resolves_ok :
    (request freshClient ['X'] none).2 = 1
    ∧ lookupOutcome (onData (request freshClient ['X'] none).1
        (mkHeader 38 ++ c9Body)) 1 = some (.resolved (some (.str ['o', 'k'])))
    ∧ (onData (request freshClient ['X'] none).1
        (mkHeader 38 ++ c9Body)).pending = [] :=
  ⟨rfl, rfl, rfl⟩

/-- **C10** Framing round trip under the ASCII precondition: for a
well-formed message, `sendMessage`'s `Content-Length` (the UTF-8 byte
count) equals the decoder's character count, the emitted bytes form the
frame the decoder expects, and feeding them back dispatches exactly one
frame whose text parses back to exactly the original message, leaving
the buffer empty. -/
theorem send_decode_roundtrip_ascii (m : Json) (hwf : wfJson m = true) :
    utf8Len (serialize m) = (serialize m).length
    ∧ sendFrame (serialize m) = mkFrame (serialize m)
    ∧ (onData freshClient (sendFrame (serialize m))).frames = [serialize m]
    ∧ parseJson (serialize m) = some m
    ∧ (onData freshClient (sendFrame (serialize m))).buffer = [] := by
  have hascii := serialize_ascii m hwf
  have h1 : utf8Len (serialize m) = (serialize m).length := utf8Len_ascii _ hascii
  have h2 : sendFrame (serialize m) = mkFrame (serialize m) := sendFrame_ascii _ hascii
  have h3 : onData freshClient (sendFrame (serialize m))
      = handleFrameText { freshClient with buffer := [] } (serialize m) := by
    rw [h2]
    exact onData_fullframe freshClient _ _ rfl
  refine ⟨h1, h2, ?_, parseJson_serialize m hwf, ?_⟩
  · rw [h3, handleFrameText_frames]
    rfl
  · rw [h3, handleFrameText_buffer]

/-- **C10 witness**: the message `{"a":[1,"x"]}`. -/
theorem send_decode_roundtrip_ascii_witness :
    wfJson (Json.obj [(['a'], Json.arr [Json.num 1, Json.str ['x']])]) = true
    ∧ (utf8Len (serialize (Json.obj [(['a'], Json.arr [Json.num 1, Json.str ['x']])]))
        = (serialize (Json.obj [(['a'], Json.arr [Json.num 1, Json.str ['x']])])).length
      ∧ sendFrame (serialize (Json.obj [(['a'], Json.arr [Json.num 1, Json.str ['x']])]))
        = mkFrame (serialize (Json.obj [(['a'], Json.arr [Json.num 1, Json.str ['x']])]))
      ∧ (onData freshClient (sendFrame (serialize
          (Json.obj [(['a'], Json.arr [Json.num 1, Json.str ['x']])])))).frames
        = [serialize (Json.obj [(['a'], Json.arr [Json.num 1, Json.str ['x']])])]
      ∧ parseJson (serialize (Json.obj [(['a'], Json.arr [Json.num 1, Json.str ['x']])]))
        = some (Json.obj [(['a'], Json.arr [Json.num 1, Json.str ['x']])])
      ∧ (onData freshClient (sendFrame (serialize
          (Json.obj [(['a'], Json.arr [Json.num 1, Json.str ['x']])])))).buffer = []) :=
  ⟨rfl, send_decode_roundtrip_ascii _ rfl⟩

theorem runRequests_ids (ms : List (List Char)) : ∀ st : ClientState,
    (runRequests st ms).2
      = (List.range ms.length).map (fun k : Nat => st.nextId + (k : Int)) := by
  induction ms with
  | nil => intro st; rfl
  | cons m ms ih =>
    intro st
    show st.nextId :: (runRequests (request st m none).1 ms).2
      = List.map (fun k : Nat => st.nextId + (k : Int)) (List.range (ms.length + 1))
    rw [ih, List.range_succ_eq_map, List.map_cons, List.map_map]
    congr 1
    · simp
    · apply List.map_congr_left
      intro a _
      show (request st m none).1.nextId + (a : Int) = st.nextId + ((a + 1 : Nat) : Int)
      show st.nextId + 1 + (a : Int) = _
      push_cast
      ring

/-- **C6** Identifier allocation: a sequence of `request` calls on a
fresh session assigns exactly the identifiers 1, 2, 3, …, which are
strictly increasing, pairwise distinct and never reused. -/
theorem request_ids_strictly_increasing (ms : List (List Char)) :
    (runRequests freshClient ms).2
      = (List.range ms.length).map (fun k : Nat => 1 + (k : Int))
    ∧ (runRequests freshClient ms).2.Pairwise (· < ·)
    ∧ (runRequests freshClient ms).2.Chain' (· < ·)
    ∧ (runRequests freshClient ms).2.Nodup := by
  have heq := runRequests_ids ms freshClient
  have hpw : ((List.range ms.length).map (fun k : Nat => 1 + (k : Int))).Pairwise (· < ·) := by
    refine List.Pairwise.map _ ?_ (List.pairwise_lt_range ms.length)
    intro a b hab
    omega
  rw [heq]
  exact ⟨rfl, hpw, hpw.chain', hpw.imp ne_of_lt⟩

theorem lookupOutcome_none_find (st : ClientState) (i : Int)
    (ho : lookupOutcome st i = none) :
    st.outcomes.find? (fun p => p.1 == i) = none := by
  unfold lookupOutcome at ho
  cases hf : st.outcomes.find? (fun p => p.1 == i) with
  | none => rfl
  | some p => rw [hf] at ho; simp at ho

/-- **C1** The timeout fires before the response: the future rejects
with a timeout error and the pending entry is removed; a response
arriving afterwards for that identifier finds no pending entry, appends
only a warning log entry, settles nothing, and leaves the pending set
and the outcome of every other identifier exactly as they were. -/
theorem timeout_then_late_response (st : ClientState) (i : Int)
    (res err : Option Json)
    (hp : i ∈ st.pending) (hnd : st.pending.Nodup)
    (ho : lookupOutcome st i = none) :
    lookupOutcome (timeoutFire st i) i = some (.rejected .timeout)
    ∧ i ∉ (timeoutFire st i).pending
    ∧ (handleResponseJ (timeoutFire st i) (.num i) res err).pending
        = (timeoutFire st i).pending
    ∧ (handleResponseJ (timeoutFire st i) (.num i) res err).outcomes
        = (timeoutFire st i).outcomes
    ∧ (handleResponseJ (timeoutFire st i) (.num i) res err).log
        = (timeoutFire st i).log ++ [.unknownResponse (.num i)]
    ∧ ∀ i2, i2 ≠ i →
        ((i2 ∈ (handleResponseJ (timeoutFire st i) (.num i) res err).pending
            ↔ i2 ∈ st.pending)
        ∧ lookupOutcome (handleResponseJ (timeoutFire st i) (.num i) res err) i2
            = lookupOutcome st i2) := by
  have hfind := lookupOutcome_none_find st i ho
  have htf : timeoutFire st i
      = { st with
            pending := st.pending.erase i
            outcomes := st.outcomes ++ [(i, .rejected .timeout)] } := by
    unfold timeoutFire
    rw [ho]
  have hnotmem : i ∉ st.pending.erase i := by
    intro hmem
    exact absurd (hnd.mem_erase_iff.mp hmem).1 (by simp)
  have hhr : handleResponseJ (timeoutFire st i) (.num i) res err
      = { timeoutFire st i with
            log := (timeoutFire st i).log ++ [.unknownResponse (.num i)] } := by
    show (if i ∈ (timeoutFire st i).pending then _ else _) = _
    rw [if_neg (by rw [htf]; exact hnotmem)]
  refine ⟨?_, ?_, ?_, ?_, ?_, ?_⟩
  · rw [htf]
    unfold lookupOutcome
    simp only [List.find?_append, hfind, Option.none_or]
    simp [List.find?]
  · rw [htf]
    exact hnotmem
  · rw [hhr]
  · rw [hhr]
  · rw [hhr]
  · intro i2 hne
    constructor
    · rw [hhr, htf]
      show i2 ∈ st.pending.erase i ↔ i2 ∈ st.pending
      exact List.mem_erase_of_ne hne
    · rw [hhr, htf]
      show lookupOutcome { st with
            pending := st.pending.erase i
            outcomes := st.outcomes ++ [(i, .rejected .timeout)]
            log := _ } i2 = lookupOutcome st i2
      unfold lookupOutcome
      simp only [List.find?_append]
      have h2 : ([(i, Outcome.rejected .timeout)].find? (fun p => p.1 == i2)) = none := by
        have hb : (i == i2) = false := beq_eq_false_iff_ne.mpr (Ne.symm hne)
        simp [List.find?, hb]
      rw [h2]
      simp

/-- **C1 witness**: identifier 7 pending, times out, then its response
arrives late. -/
theorem timeout_then_late_response_witness :
    ((7 : Int) ∈ ({ freshClient with pending := [7] } : ClientState).pending
      ∧ ({ freshClient with pending := [7] } : ClientState).pending.Nodup
      ∧ lookupOutcome { freshClient with pending := [7] } 7 = none)
    ∧ (lookupOutcome (timeoutFire { freshClient with pending := [7] } 7) 7
        = some (.rejected .timeout)
      ∧ (7 : Int) ∉ (timeoutFire { freshClient with pending := [7] } 7).pending) := by
  have h := timeout_then_late_response { freshClient with pending := [7] } 7
    none none (by simp) (by simp) rfl
  exact ⟨⟨by simp, by simp, rfl⟩, h.1, h.2.1⟩

/-! ## The process supervisor (`ClangdManager`)

State fields mirror the class fields: `process`/`lspClient` presence,
the `initialized` and `shuttingDown` flags, and `restartCount` with
`maxRestarts = 3`. -/

structure MgrState where
  hasProcess : Bool
  hasClient : Bool
  initialized : Bool
  shuttingDown : Bool
  restartCount : Nat
deriving DecidableEq

def maxRestarts : Nat := 3

/-- `ClangdManager.handleProcessExit`: when not shutting down, discard
the session objects, and if the restart budget remains, increment the
count and schedule a restart after `1000 * restartCount` milliseconds —
a linear backoff (the source comment claims exponential). -/
def handleProcessExit (st : MgrState) : MgrState × Option Nat :=
  if st.shuttingDown then (st, none)
  else if st.restartCount < maxRestarts then
    ({ st with
         hasProcess := false
         hasClient := false
         initialized := false
         restartCount := st.restartCount + 1 },
     some (1000 * (st.restartCount + 1)))
  else
    ({ st with
         hasProcess := false
         hasClient := false
         initialized := false }, none)

/-- `ClangdManager.cleanup`: discard the client and the process; the
`shuttingDown` flag and `restartCount` are never reset. -/
def cleanupRun (st : MgrState) : MgrState :=
  { st with hasClient := false, hasProcess := false, initialized := false }

/-- `ClangdManager.start` run to completion, parameterised by whether
the spawn and the initialize handshake succeed.  Returns the final state
and whether a `ClangdError` was thrown. -/
def startRun (st : MgrState) (spawnOk handshakeOk : Bool) : MgrState × Bool :=
  if st.hasProcess then (st, false)
  else if spawnOk = false then
    (cleanupRun { st with hasProcess := true, hasClient := true }, true)
  else if handshakeOk = false then
    (cleanupRun { st with hasProcess := true, hasClient := true }, true)
  else
    ({ st with hasProcess := true, hasClient := true, initialized := true }, false)

/-- The supervisor states at each suspension point of
`ClangdManager.shutdown`: awaiting the shutdown request, sleeping the
grace period, and awaiting the kill timeout inside `cleanup`.  The
shutting-down flag is set synchronously before the first of them. -/
def shutdownStates (st : MgrState) : List MgrState :=
  if st.hasProcess = false ∨ st.shuttingDown then []
  else
    [{ st with shuttingDown := true },
     { st with shuttingDown := true },
     { st with shuttingDown := true, hasClient := false }]

/-- `ClangdManager.shutdown` run to completion. -/
def shutdownRun (st : MgrState) : MgrState :=
  if st.hasProcess = false ∨ st.shuttingDown then st
  else cleanupRun { st with shuttingDown := true }

inductive MgrEvent where
  | procExit
  | shutdownCall
deriving DecidableEq

/-- The supervisor transitions other than an explicit `start()` call. -/
def mgrStep (st : MgrState) (e : MgrEvent) : MgrState × Option Nat :=
  match e with
  | .procExit => handleProcessExit st
  | .shutdownCall => (shutdownRun st, none)

/-- **C2** Restart policy: on an unexpected exit (shutdown not in
progress) with `n` prior restarts, `n < 3`, the `(n+1)`-th attempt is
scheduled after `1000 * (n+1)` ms — a linear 1x, 2x, 3x backoff; once
3 attempts are used, no restart is scheduled, and a crashed supervisor
with exhausted budget stays without a process under every event except
an explicit `start()`, which does spawn again. -/
theorem restart_policy (st : MgrState) (hsd : st.shuttingDown = false) :
    (st.restartCount < maxRestarts →
      (handleProcessExit st).2 = some (1000 * (st.restartCount + 1))
      ∧ (handleProcessExit st).1.restartCount = st.restartCount + 1
      ∧ (handleProcessExit st).1.hasProcess = false)
    ∧ (maxRestarts ≤ st.restartCount →
      (handleProcessExit st).2 = none
      ∧ (handleProcessExit st).1.hasProcess = false
      ∧ (handleProcessExit st).1.restartCount = st.restartCount)
    ∧ (∀ st2 : MgrState, st2.hasProcess = false → maxRestarts ≤ st2.restartCount →
        ∀ e, (mgrStep st2 e).1.hasProcess = false ∧ (mgrStep st2 e).2 = none)
    ∧ (∀ st2 : MgrState, st2.hasProcess = false →
        (startRun st2 true true).1.hasProcess = true) := by
  refine ⟨fun hlt => ?_, fun hge => ?_, fun st2 h2 hge e => ?_, fun st2 h2 => ?_⟩
  · unfold handleProcessExit
    rw [hsd]
    rw [if_neg (by simp), if_pos hlt]
    exact ⟨rfl, rfl, rfl⟩
  · unfold handleProcessExit
    rw [hsd]
    rw [if_neg (by simp), if_neg (by omega)]
    exact ⟨rfl, rfl, rfl⟩
  · cases e with
    | procExit =>
      unfold mgrStep handleProcessExit
      by_cases hs2 : st2.shuttingDown = true
      · rw [if_pos hs2]
        exact ⟨h2, rfl⟩
      · rw [if_neg hs2, if_neg (by omega)]
        exact ⟨rfl, rfl⟩
    | shutdownCall =>
      unfold mgrStep shutdownRun
      rw [if_pos (Or.inl h2)]
      exact ⟨h2, rfl⟩
  · unfold startRun
    rw [if_neg (by rw [h2]; simp)]
    rw [if_neg (by simp), if_neg (by simp)]

/-- **C2 witness**: a running supervisor with no prior restarts. -/
theorem restart_policy_witness :
    (MgrState.mk true true true false 0).shuttingDown = false
    ∧ (handleProcessExit (MgrState.mk true true true false 0)).2 = some 1000 := by
  refine ⟨rfl, ?_⟩
  have h := (restart_policy (MgrState.mk true true true false 0) rfl).1 (by decide)
  exact h.1

/-- **C7** A process exit observed at any suspension point of the
shutdown sequence never triggers the crash-restart path: the
shutting-down flag is already set at every such point (it is set before
the first await), so `handleProcessExit` returns immediately — no
restart is scheduled and the state is left unchanged (no crash
transition). -/
theorem shutdown_suppresses_restart (st : MgrState) :
    ∀ s ∈ shutdownStates st, s.shuttingDown = true ∧ handleProcessExit s = (s, none) := by
  intro s hs
  unfold shutdownStates at hs
  by_cases hg : st.hasProcess = false ∨ st.shuttingDown
  · rw [if_pos hg] at hs
    simp at hs
  · rw [if_neg hg] at hs
    have hexit : ∀ s2 : MgrState, s2.shuttingDown = true →
        handleProcessExit s2 = (s2, none) := by
      intro s2 h2
      unfold handleProcessExit
      rw [if_pos h2]
    rcases List.mem_cons.mp hs with h | hs2
    · subst h; exact ⟨rfl, hexit _ rfl⟩
    · rcases List.mem_cons.mp hs2 with h | hs3
      · subst h; exact ⟨rfl, hexit _ rfl⟩
      · rcases List.mem_cons.mp hs3 with h | hs4
        · subst h; exact ⟨rfl, hexit _ rfl⟩
        · simp at hs4

/-- **C7 witness**: an exit at the first suspension point of a running
supervisor's shutdown. -/
theorem shutdown_suppresses_restart_witness :
    (MgrState.mk true true true true 0) ∈ shutdownStates (MgrState.mk true true true false 0)
    ∧ ((MgrState.mk true true true true 0).shuttingDown = true
      ∧ handleProcessExit (MgrState.mk true true true true 0)
          = (MgrState.mk true true true true 0, none)) :=
  ⟨by decide,
   shutdown_suppresses_restart (MgrState.mk true true true false 0)
     (MgrState.mk true true true true 0) (by decide)⟩

/-! ## The open-file registry (`FileTracker`)

`openFiles` is a JS `Map` from URI to last-access timestamp, modelled as
an insertion-ordered association list; `inFlightOpens` is a `Set`.
`ensureFileOpen` is a coroutine with suspension points at its `await`s
(the poll-loop sleep and the `readFile` inside `openFile`); each
`CallPhase` marks the atomic block the call will execute next, and the
cooperative scheduler interleaves whole blocks. -/

def maxOpenFiles : Nat := 100

inductive TrkEv where
  | didClose (uri : List Char)
  | didOpen (uri : List Char)
deriving DecidableEq

structure TrkSys where
  openFiles : List (List Char × Nat)
  inFlight : List (List Char)
  events : List TrkEv
  clock : Nat
deriving DecidableEq

def hasFile (m : List (List Char × Nat)) (u : List Char) : Bool :=
  (m.find? (fun p => p.1 == u)).isSome

/-- JS `Map.set`: overwrite in place, else append. -/
def setFile : List (List Char × Nat) → List Char → Nat → List (List Char × Nat)
  | [], u, t => [(u, t)]
  | (k, v) :: rest, u, t =>
    if k = u then (k, t) :: rest else (k, v) :: setFile rest u t

/-- JS `Map.delete`. -/
def eraseFile : List (List Char × Nat) → List Char → List (List Char × Nat)
  | [], _ => []
  | (k, v) :: rest, u => if k = u then rest else (k, v) :: eraseFile rest u

/-- The scan loop of `FileTracker.evictLRU`: iterate in insertion
order, keeping the entry with a strictly smaller timestamp (so the first
minimal entry wins). -/
def findOldest (m : List (List Char × Nat)) : Option (List Char × Nat) :=
  m.foldl (fun acc e =>
    match acc with
    | none => some e
    | some (u0, t0) => if e.2 < t0 then some e else some (u0, t0)) none

/-- `FileTracker.evictLRU`: JS truthiness of `oldestUri` skips both
`null` and the empty string; otherwise emit `didClose` and delete. -/
def evictLRU (sys : TrkSys) : TrkSys :=
  match findOldest sys.openFiles with
  | some (u, _) =>
    if u = [] then sys
    else { sys with
             openFiles := eraseFile sys.openFiles u
             events := sys.events ++ [.didClose u] }
  | none => sys

inductive CallResult where
  | refreshed | joined | opened | failed
deriving DecidableEq

inductive CallPhase where
  | entry
  | waiting
  | opening
  | done (r : CallResult)
deriving DecidableEq

structure CallSt where
  uri : List Char
  readOk : Bool
  phase : CallPhase
deriving DecidableEq

def addInFlight (sys : TrkSys) (u : List Char) : TrkSys :=
  { sys with inFlight := if u ∈ sys.inFlight then sys.inFlight else u :: sys.inFlight }

/-- Mark the URI in flight, then evict if the registry is at capacity —
the synchronous prefix of the open attempt, up to the `readFile`
`await`. -/
def markAndEvict (sys : TrkSys) (u : List Char) : TrkSys :=
  if (addInFlight sys u).openFiles.length ≥ maxOpenFiles then evictLRU (addInFlight sys u)
  else addInFlight sys u

/-- One atomic block of `FileTracker.ensureFileOpen` (between
`await`s), following the source's branch order. -/
def callStep (sys : TrkSys) (c : CallSt) : TrkSys × CallSt :=
  match c.phase with
  | .entry =>
    if hasFile sys.openFiles c.uri then
      ({ sys with
           openFiles := setFile sys.openFiles c.uri sys.clock
           clock := sys.clock + 1 },
       { c with phase := .done .refreshed })
    else if c.uri ∈ sys.inFlight then
      (sys, { c with phase := .waiting })
    else
      (markAndEvict sys c.uri, { c with phase := .opening })
  | .waiting =>
    if c.uri ∈ sys.inFlight then (sys, c)
    else if hasFile sys.openFiles c.uri then
      ({ sys with
           openFiles := setFile sys.openFiles c.uri sys.clock
           clock := sys.clock + 1 },
       { c with phase := .done .joined })
    else
      (markAndEvict sys c.uri, { c with phase := .opening })
  | .opening =>
    if c.readOk then
      ({ sys with
           openFiles := setFile sys.openFiles c.uri sys.clock
           clock := sys.clock + 1
           events := sys.events ++ [.didOpen c.uri]
           inFlight := sys.inFlight.erase c.uri },
       { c with phase := .done .opened })
    else
      ({ sys with inFlight := sys.inFlight.erase c.uri },
       { c with phase := .done .failed })
  | .done _ => (sys, c)

/-- A single call run for `n` atomic blocks (no interleaving). -/
def runCall : Nat → TrkSys → CallSt → TrkSys × CallSt
  | 0, sys, c => (sys, c)
  | n + 1, sys, c => runCall n (callStep sys c).1 (callStep sys c).2

/-- Two calls interleaved under an explicit schedule: `true` steps the
first call, `false` the second. -/
def runPair : TrkSys → CallSt → CallSt → List Bool → TrkSys × CallSt × CallSt
  | sys, a, b, [] => (sys, a, b)
  | sys, a, b, pick :: sch =>
    if pick then runPair (callStep sys a).1 (callStep sys a).2 b sch
    else runPair (callStep sys b).1 a (callStep sys b).2 sch

def countOpens (u : List Char) (evs : List TrkEv) : Nat :=
  evs.count (.didOpen u)

def emptySys : TrkSys := { openFiles := [], inFlight := [], events := [], clock := 0 }

def mkCall (u : List Char) (ok : Bool) : CallSt :=
  { uri := u, readOk := ok, phase := .entry }

theorem foldl_oldest_spec (m : List (List Char × Nat)) :
    ∀ p : List Char × Nat,
      ∃ q, m.foldl (fun acc e =>
          match acc with
          | none => some e
          | some (u0, t0) => if e.2 < t0 then some e else some (u0, t0)) (some p) = some q
        ∧ (q = p ∨ q ∈ m) ∧ q.2 ≤ p.2 ∧ ∀ e ∈ m, q.2 ≤ e.2 := by
  induction m with
  | nil => intro p; exact ⟨p, rfl, Or.inl rfl, le_rfl, by simp⟩
  | cons e m ih =>
    intro p
    obtain ⟨u0, t0⟩ := p
    simp only [List.foldl_cons]
    by_cases h : e.2 < t0
    · rw [if_pos h]
      obtain ⟨q, hq, hmem, hle, hmin⟩ := ih e
      refine ⟨q, hq, ?_, by omega, ?_⟩
      · rcases hmem with hmem | hmem
        · exact Or.inr (hmem ▸ List.mem_cons_self _ _)
        · exact Or.inr (List.mem_cons_of_mem _ hmem)
      · intro e2 he2
        rcases List.mem_cons.mp he2 with he2 | he2
        · subst he2; omega
        · exact hmin e2 he2
    · rw [if_neg h]
      obtain ⟨q, hq, hmem, hle, hmin⟩ := ih (u0, t0)
      refine ⟨q, hq, ?_, hle, ?_⟩
      · rcases hmem with hmem | hmem
        · exact Or.inl hmem
        · exact Or.inr (List.mem_cons_of_mem _ hmem)
      · intro e2 he2
        rcases List.mem_cons.mp he2 with he2 | he2
        · subst he2; simp at hle ⊢; omega
        · exact hmin e2 he2

theorem findOldest_spec (m : List (List Char × Nat)) (hne : m ≠ []) :
    ∃ w t, findOldest m = some (w, t) ∧ (w, t) ∈ m ∧ ∀ e ∈ m, t ≤ e.2 := by
  cases m with
  | nil => exact absurd rfl hne
  | cons x m =>
    obtain ⟨q, hq, hmem, hle, hmin⟩ := foldl_oldest_spec m x
    refine ⟨q.1, q.2, ?_, ?_, ?_⟩
    · unfold findOldest
      rw [List.foldl_cons]
      exact hq
    · rcases hmem with hmem | hmem
      · exact hmem ▸ List.mem_cons_self _ _
      · exact List.mem_cons_of_mem _ hmem
    · intro e he
      rcases List.mem_cons.mp he with he | he
      · subst he
        exact hle
      · exact hmin e he

theorem hasFile_of_mem (m : List (List Char × Nat)) (w : List Char) (t : Nat)
    (h : (w, t) ∈ m) : hasFile m w = true := by
  induction m with
  | nil => simp at h
  | cons e m ih =>
    rcases List.mem_cons.mp h with h | h
    · subst h
      simp [hasFile, List.find?]
    · unfold hasFile
      rw [List.find?]
      by_cases he : (e.1 == w) = true
      · rw [he]; rfl
      · rw [Bool.not_eq_true] at he
        rw [he]
        exact ih h

theorem eraseFile_length (m : List (List Char × Nat)) (w : List Char)
    (h : hasFile m w = true) : (eraseFile m w).length + 1 = m.length := by
  induction m with
  | nil => simp [hasFile] at h
  | cons e m ih =>
    obtain ⟨k, v⟩ := e
    unfold eraseFile
    by_cases hk : k = w
    · rw [if_pos hk]; rfl
    · rw [if_neg hk]
      simp only [List.length_cons]
      have h2 : hasFile m w = true := by
        unfold hasFile at h
        rw [List.find?] at h
        have : (k == w) = false := beq_eq_false_iff_ne.mpr hk
        rw [this] at h
        exact h
      rw [← ih h2]

theorem hasFile_eraseFile (m : List (List Char × Nat)) (w u : List Char)
    (h : hasFile m u = false) : hasFile (eraseFile m w) u = false := by
  induction m with
  | nil => simp [eraseFile, hasFile]
  | cons e m ih =>
    obtain ⟨k, v⟩ := e
    unfold hasFile at h
    rw [List.find?] at h
    by_cases hk : (k == u) = true
    · rw [hk] at h; simp at h
    · rw [Bool.not_eq_true] at hk
      rw [hk] at h
      unfold eraseFile
      by_cases hw : k = w
      · rw [if_pos hw]; exact h
      · rw [if_neg hw]
        unfold hasFile
        rw [List.find?, hk]
        exact ih h

theorem setFile_length_new (m : List (List Char × Nat)) (u : List Char) (t : Nat)
    (h : hasFile m u = false) : (setFile m u t).length = m.length + 1 := by
  induction m with
  | nil => rfl
  | cons e m ih =>
    obtain ⟨k, v⟩ := e
    unfold hasFile at h
    rw [List.find?] at h
    by_cases hk : (k == u) = true
    · rw [hk] at h; simp at h
    · rw [Bool.not_eq_true] at hk
      rw [hk] at h
      unfold setFile
      rw [if_neg (by intro he; subst he; simp at hk)]
      simp only [List.length_cons]
      rw [ih h]

/-- **C3** Opening an untracked resource while the registry is at its
capacity of 100 entries evicts exactly one entry — one whose timestamp
is minimal (the least recently accessed) — emitting its `didClose`
strictly before the new resource's `didOpen`, and the registry size
returns to exactly the capacity, never exceeding it. -/
theorem ensureOpen_evicts_lru (sys : TrkSys) (u : List Char)
    (hnotopen : hasFile sys.openFiles u = false)
    (hnotfl : u ∉ sys.inFlight)
    (hcap : sys.openFiles.length = maxOpenFiles)
    (hkeys : ∀ e ∈ sys.openFiles, e.1 ≠ ([] : List Char)) :
    ∃ w t, findOldest sys.openFiles = some (w, t)
      ∧ (w, t) ∈ sys.openFiles
      ∧ (∀ e ∈ sys.openFiles, t ≤ e.2)
      ∧ (runCall 2 sys (mkCall u true)).1.events
          = sys.events ++ [.didClose w, .didOpen u]
      ∧ (runCall 2 sys (mkCall u true)).1.openFiles.length = maxOpenFiles
      ∧ (runCall 2 sys (mkCall u true)).2.phase = .done .opened := by
  have hne : sys.openFiles ≠ [] := by
    intro h
    rw [h] at hcap
    simp [maxOpenFiles] at hcap
  obtain ⟨w, t, hfo, hmem, hmin⟩ := findOldest_spec sys.openFiles hne
  have hwne : w ≠ [] := hkeys (w, t) hmem
  have hwfile : hasFile sys.openFiles w = true := hasFile_of_mem _ _ _ hmem
  have hstep1 : callStep sys (mkCall u true)
      = ({ sys with
             openFiles := eraseFile sys.openFiles w
             inFlight := u :: sys.inFlight
             events := sys.events ++ [.didClose w] },
         { uri := u, readOk := true, phase := .opening }) := by
    unfold callStep mkCall
    try dsimp only
    rw [if_neg (by rw [hnotopen]; simp)]
    rw [if_neg hnotfl]
    unfold markAndEvict addInFlight
    try dsimp only
    rw [if_neg hnotfl]
    try dsimp only
    rw [if_pos (by omega)]
    unfold evictLRU
    try dsimp only
    rw [hfo]
    try dsimp only
    rw [if_neg hwne]
  have hstep2 : callStep
      ({ sys with
           openFiles := eraseFile sys.openFiles w
           inFlight := u :: sys.inFlight
           events := sys.events ++ [.didClose w] } : TrkSys)
      { uri := u, readOk := true, phase := .opening }
      = ({ sys with
             openFiles := setFile (eraseFile sys.openFiles w) u sys.clock
             inFlight := (u :: sys.inFlight).erase u
             events := (sys.events ++ [.didClose w]) ++ [.didOpen u]
             clock := sys.clock + 1 },
         { uri := u, readOk := true, phase := .done .opened }) := by
    unfold callStep
    try dsimp only
    rw [if_pos rfl]
  have hrun : runCall 2 sys (mkCall u true)
      = ({ sys with
             openFiles := setFile (eraseFile sys.openFiles w) u sys.clock
             inFlight := (u :: sys.inFlight).erase u
             events := (sys.events ++ [.didClose w]) ++ [.didOpen u]
             clock := sys.clock + 1 },
         { uri := u, readOk := true, phase := .done .opened }) := by
    show runCall 1 (callStep sys (mkCall u true)).1 (callStep sys (mkCall u true)).2 = _
    rw [hstep1]
    show runCall 0 (callStep _ _).1 (callStep _ _).2 = _
    rw [hstep2]
    rfl
  refine ⟨w, t, hfo, hmem, hmin, ?_, ?_, ?_⟩
  · rw [hrun]
    simp
  · rw [hrun]
    show (setFile (eraseFile sys.openFiles w) u sys.clock).length = maxOpenFiles
    rw [setFile_length_new _ _ _ (hasFile_eraseFile _ _ _ hnotopen)]
    have := eraseFile_length sys.openFiles w hwfile
    omega
  · rw [hrun]

/-- **C3 witness**: a registry holding 100 entries with keys `0`..`99`. -/
def fullRegistry : TrkSys :=
  { openFiles := (List.range 100).map (fun k => (natDigits k, k + 1))
    inFlight := []
    events := []
    clock := 200 }

theorem ensureOpen_evicts_lru_witness :
    (hasFile fullRegistry.openFiles ['x'] = false
      ∧ (['x'] : List Char) ∉ fullRegistry.inFlight
      ∧ fullRegistry.openFiles.length = maxOpenFiles
      ∧ (∀ e ∈ fullRegistry.openFiles, e.1 ≠ ([] : List Char)))
    ∧ (∃ w t, findOldest fullRegistry.openFiles = some (w, t)
        ∧ (w, t) ∈ fullRegistry.openFiles
        ∧ (∀ e ∈ fullRegistry.openFiles, t ≤ e.2)
        ∧ (runCall 2 fullRegistry (mkCall ['x'] true)).1.events
            = fullRegistry.events ++ [.didClose w, .didOpen ['x']]
        ∧ (runCall 2 fullRegistry (mkCall ['x'] true)).1.openFiles.length = maxOpenFiles
        ∧ (runCall 2 fullRegistry (mkCall ['x'] true)).2.phase = .done .opened) :=
  ⟨⟨by decide, by decide, by decide, by decide⟩,
   ensureOpen_evicts_lru fullRegistry ['x'] (by decide) (by decide) (by decide) (by decide)⟩

/-! ### Two concurrent `ensureFileOpen` calls for the same identifier -/

theorem hasFile_single_self (u : List Char) (t : Nat) :
    hasFile [(u, t)] u = true := by
  simp [hasFile, List.find?]

theorem setFile_single (u : List Char) (t t2 : Nat) :
    setFile [(u, t)] u t2 = [(u, t2)] := by
  simp [setFile]

theorem countOpens_append_open (u : List Char) (evs : List TrkEv) :
    countOpens u (evs ++ [.didOpen u]) = countOpens u evs + 1 := by
  simp [countOpens, List.count_append]

theorem callStep_readOk (sys : TrkSys) (c : CallSt) :
    (callStep sys c).2.readOk = c.readOk := by
  unfold callStep
  repeat first | rfl | split

theorem callStep_uri (sys : TrkSys) (c : CallSt) :
    (callStep sys c).2.uri = c.uri := by
  unfold callStep
  repeat first | rfl | split

/-- Invariant for two interleaved `ensureFileOpen` calls on the same
identifier, starting from an empty registry. -/
structure PairInv (u : List Char) (sys : TrkSys) (a b : CallSt) : Prop where
  ua : a.uri = u
  ub : b.uri = u
  ofl : sys.openFiles = [] ∨ ∃ t, sys.openFiles = [(u, t)]
  infl : sys.inFlight
      = (if a.phase = .opening ∨ b.phase = .opening then [u] else [])
  notboth : ¬(a.phase = .opening ∧ b.phase = .opening)
  cnt : countOpens u sys.events = (if hasFile sys.openFiles u then 1 else 0)
  openo : (a.phase = .opening ∨ b.phase = .opening) →
      hasFile sys.openFiles u = false
  dA : ∀ r, a.phase = .done r → r ≠ .failed → hasFile sys.openFiles u = true
  dB : ∀ r, b.phase = .done r → r ≠ .failed → hasFile sys.openFiles u = true
  fA : a.phase = .done .failed → a.readOk = false
  fB : b.phase = .done .failed → b.readOk = false

theorem pairInv_swap (u : List Char) (sys : TrkSys) (a b : CallSt)
    (h : PairInv u sys a b) : PairInv u sys b a := by
  obtain ⟨ua, ub, ofl, infl, notboth, cnt, openo, dA, dB, fA, fB⟩ := h
  refine ⟨ub, ua, ofl, ?_, fun hb => notboth ⟨hb.2, hb.1⟩, cnt,
    fun hor => openo hor.symm, dB, dA, fB, fA⟩
  rw [infl]
  congr 1
  exact propext or_comm

theorem pairInv_step_a (u : List Char) (sys : TrkSys) (a b : CallSt)
    (h : PairInv u sys a b) :
    PairInv u (callStep sys a).1 (callStep sys a).2 b := by
  obtain ⟨ua, ub, ofl, infl, notboth, cnt, openo, dA, dB, fA, fB⟩ := h
  obtain ⟨au, ark, aph⟩ := a
  dsimp only at ua dA fA notboth infl openo
  have hau : u = au := ua.symm
  subst hau
  have hsingle : hasFile sys.openFiles u = true →
      ∃ t0, sys.openFiles = [(u, t0)] := by
    intro hof
    rcases ofl with h0 | ⟨t0, h0⟩
    · rw [h0] at hof
      simp [hasFile] at hof
    · exact ⟨t0, h0⟩
  have hsmall : ¬ (sys.openFiles.length ≥ maxOpenFiles) := by
    rcases ofl with h0 | ⟨t0, h0⟩ <;> rw [h0] <;> simp [maxOpenFiles]
  cases aph with
  | entry =>
    by_cases hof : hasFile sys.openFiles u = true
    · -- the file is already tracked: refresh the timestamp
      have hbno : ¬ b.phase = .opening := by
        intro hb
        have := openo (Or.inr hb)
        rw [this] at hof
        exact absurd hof (by simp)
      obtain ⟨t0, hof0⟩ := hsingle hof
      have hstep : callStep sys ⟨u, ark, .entry⟩
          = ({ sys with
                 openFiles := setFile sys.openFiles u sys.clock
                 clock := sys.clock + 1 },
             ⟨u, ark, .done .refreshed⟩) := by
        unfold callStep
        try dsimp only
        rw [if_pos hof]
      rw [hstep]
      have hof2 : hasFile (setFile sys.openFiles u sys.clock) u = true := by
        rw [hof0, setFile_single]
        exact hasFile_single_self u sys.clock
      refine ⟨rfl, ub, ?_, ?_, ?_, ?_, ?_, ?_, ?_, ?_, fB⟩
      · right
        exact ⟨sys.clock, by rw [hof0, setFile_single]⟩
      · show sys.inFlight = _
        rw [infl]
        simp [hbno]
      · dsimp only
        intro hcon
        exact hbno hcon.2
      · show countOpens u sys.events = _
        rw [cnt, hof, hof2]
      · dsimp only
        intro hor
        rcases hor with hor | hor
        · simp at hor
        · exact absurd hor hbno
      · dsimp only
        intro r hr _
        exact hof2
      · intro r hr hrf
        have := dB r hr hrf
        rw [hof0] at this ⊢
        rw [setFile_single]
        exact hasFile_single_self u sys.clock
      · dsimp only
        intro hcon
        simp at hcon
    · have hofF : hasFile sys.openFiles u = false := by
        rw [Bool.not_eq_true] at hof
        exact hof
      by_cases hif : u ∈ sys.inFlight
      · -- another call is opening: go to the poll loop
        have hstep : callStep sys ⟨u, ark, .entry⟩ = (sys, ⟨u, ark, .waiting⟩) := by
          unfold callStep
          try dsimp only
          rw [if_neg (by rw [hofF]; simp), if_pos hif]
        rw [hstep]
        refine ⟨rfl, ub, ofl, ?_, ?_, cnt, ?_, ?_, dB, ?_, fB⟩
        · rw [infl]
          simp
        · dsimp only
          intro hcon
          simp at hcon
        · dsimp only
          intro hor
          rcases hor with hor | hor
          · simp at hor
          · exact openo (Or.inr hor)
        · dsimp only
          intro r hr
          simp at hr
        · dsimp only
          intro hcon
          simp at hcon
      · -- begin the open attempt: mark in flight (no eviction: ≤ 1 entry)
        have hbno : ¬ b.phase = .opening := by
          intro hb
          rw [infl, if_pos (Or.inr hb)] at hif
          exact hif (by simp)
        have hfl0 : sys.inFlight = [] := by
          rw [infl, if_neg]
          intro hcon
          rcases hcon with hcon | hcon
          · simp at hcon
          · exact hbno hcon
        have hstep : callStep sys ⟨u, ark, .entry⟩
            = ({ sys with inFlight := u :: sys.inFlight }, ⟨u, ark, .opening⟩) := by
          unfold callStep
          try dsimp only
          rw [if_neg (by rw [hofF]; simp), if_neg hif]
          unfold markAndEvict addInFlight
          try dsimp only
          rw [if_neg hif, if_neg hsmall]
        rw [hstep]
        refine ⟨rfl, ub, ofl, ?_, ?_, cnt, ?_, ?_, ?_, ?_, fB⟩
        · show u :: sys.inFlight = _
          rw [hfl0]
          simp
        · dsimp only
          intro hcon
          exact hbno hcon.2
        · dsimp only
          intro _
          exact hofF
        · dsimp only
          intro r hr
          simp at hr
        · intro r hr hrf
          exact absurd (dB r hr hrf) (by rw [hofF]; simp)
        · dsimp only
          intro hcon
          simp at hcon
  | waiting =>
    by_cases hif : u ∈ sys.inFlight
    · -- still in flight: keep polling
      have hstep : callStep sys ⟨u, ark, .waiting⟩ = (sys, ⟨u, ark, .waiting⟩) := by
        unfold callStep
        try dsimp only
        rw [if_pos hif]
      rw [hstep]
      exact ⟨rfl, ub, ofl, by rw [infl], notboth, cnt, openo, dA, dB, fA, fB⟩
    · by_cases hof : hasFile sys.openFiles u = true
      · -- the other call opened it meanwhile: refresh and return
        have hbno : ¬ b.phase = .opening := by
          intro hb
          have := openo (Or.inr hb)
          rw [this] at hof
          exact absurd hof (by simp)
        obtain ⟨t0, hof0⟩ := hsingle hof
        have hstep : callStep sys ⟨u, ark, .waiting⟩
            = ({ sys with
                   openFiles := setFile sys.openFiles u sys.clock
                   clock := sys.clock + 1 },
               ⟨u, ark, .done .joined⟩) := by
          unfold callStep
          try dsimp only
          rw [if_neg hif, if_pos hof]
        rw [hstep]
        have hof2 : hasFile (setFile sys.openFiles u sys.clock) u = true := by
          rw [hof0, setFile_single]
          exact hasFile_single_self u sys.clock
        refine ⟨rfl, ub, ?_, ?_, ?_, ?_, ?_, ?_, ?_, ?_, fB⟩
        · right
          exact ⟨sys.clock, by rw [hof0, setFile_single]⟩
        · show sys.inFlight = _
          rw [infl]
          simp [hbno]
        · dsimp only
          intro hcon
          exact hbno hcon.2
        · show countOpens u sys.events = _
          rw [cnt, hof, hof2]
        · dsimp only
          intro hor
          rcases hor with hor | hor
          · simp at hor
          · exact absurd hor hbno
        · dsimp only
          intro r hr _
          exact hof2
        · intro r hr hrf
          have := dB r hr hrf
          rw [hof0] at this ⊢
          rw [setFile_single]
          exact hasFile_single_self u sys.clock
        · dsimp only
          intro hcon
          simp at hcon
      · -- the other attempt failed: attempt the open ourselves
        have hofF : hasFile sys.openFiles u = false := by
          rw [Bool.not_eq_true] at hof
          exact hof
        have hbno : ¬ b.phase = .opening := by
          intro hb
          rw [infl, if_pos (Or.inr hb)] at hif
          exact hif (by simp)
        have hfl0 : sys.inFlight = [] := by
          rw [infl, if_neg]
          intro hcon
          rcases hcon with hcon | hcon
          · simp at hcon
          · exact hbno hcon
        have hstep : callStep sys ⟨u, ark, .waiting⟩
            = ({ sys with inFlight := u :: sys.inFlight }, ⟨u, ark, .opening⟩) := by
          unfold callStep
          try dsimp only
          rw [if_neg hif, if_neg (by rw [hofF]; simp)]
          unfold markAndEvict addInFlight
          try dsimp only
          rw [if_neg hif, if_neg hsmall]
        rw [hstep]
        refine ⟨rfl, ub, ofl, ?_, ?_, cnt, ?_, ?_, ?_, ?_, fB⟩
        · show u :: sys.inFlight = _
          rw [hfl0]
          simp
        · dsimp only
          intro hcon
          exact hbno hcon.2
        · dsimp only
          intro _
          exact hofF
        · dsimp only
          intro r hr
          simp at hr
        · intro r hr hrf
          exact absurd (dB r hr hrf) (by rw [hofF]; simp)
        · dsimp only
          intro hcon
          simp at hcon
  | opening =>
    have hbno : ¬ b.phase = .opening := fun hb => notboth ⟨rfl, hb⟩
    have hofF : hasFile sys.openFiles u = false := openo (Or.inl rfl)
    have hfl : sys.inFlight = [u] := by
      rw [infl, if_pos (Or.inl rfl)]
    have hnil : sys.openFiles = [] := by
      rcases ofl with h0 | ⟨t0, h0⟩
      · exact h0
      · rw [h0, hasFile_single_self] at hofF
        simp at hofF
    by_cases hrk : ark = true
    · -- `readFile` succeeded: emit `didOpen`, record, clear in-flight
      have hstep : callStep sys ⟨u, ark, .opening⟩
          = ({ sys with
                 openFiles := setFile sys.openFiles u sys.clock
                 clock := sys.clock + 1
                 events := sys.events ++ [.didOpen u]
                 inFlight := sys.inFlight.erase u },
             ⟨u, ark, .done .opened⟩) := by
        unfold callStep
        try dsimp only
        rw [if_pos hrk]
      rw [hstep]
      have hof2 : hasFile (setFile sys.openFiles u sys.clock) u = true := by
        rw [hnil]
        show hasFile [(u, sys.clock)] u = true
        exact hasFile_single_self u sys.clock
      refine ⟨rfl, ub, ?_, ?_, ?_, ?_, ?_, ?_, ?_, ?_, fB⟩
      · right
        exact ⟨sys.clock, by rw [hnil]; rfl⟩
      · show sys.inFlight.erase u = _
        rw [hfl]
        simp [hbno, List.erase_cons_head]
      · dsimp only
        intro hcon
        exact hbno hcon.2
      · show countOpens u (sys.events ++ [.didOpen u]) = _
        rw [countOpens_append_open, cnt, hofF, hof2]
        simp
      · dsimp only
        intro hor
        rcases hor with hor | hor
        · simp at hor
        · exact absurd hor hbno
      · dsimp only
        intro r hr _
        exact hof2
      · intro r hr hrf
        exact absurd (dB r hr hrf) (by rw [hofF]; simp)
      · dsimp only
        intro hcon
        simp at hcon
    · -- `readFile` failed: clear in-flight only, no announcement
      have hrkF : ark = false := by
        rw [Bool.not_eq_true] at hrk
        exact hrk
      have hstep : callStep sys ⟨u, ark, .opening⟩
          = ({ sys with inFlight := sys.inFlight.erase u },
             ⟨u, ark, .done .failed⟩) := by
        unfold callStep
        try dsimp only
        rw [if_neg (by rw [hrkF]; simp)]
      rw [hstep]
      refine ⟨rfl, ub, ofl, ?_, ?_, cnt, ?_, ?_, ?_, ?_, fB⟩
      · show sys.inFlight.erase u = _
        rw [hfl]
        simp [hbno, List.erase_cons_head]
      · dsimp only
        intro hcon
        exact hbno hcon.2
      · dsimp only
        intro hor
        rcases hor with hor | hor
        · simp at hor
        · exact absurd hor hbno
      · dsimp only
        intro r hr hrf
        rw [show r = .failed from by injection hr with h2; exact h2.symm] at hrf
        simp at hrf
      · intro r hr hrf
        exact absurd (dB r hr hrf) (by rw [hofF]; simp)
      · dsimp only
        intro _
        exact hrkF
  | done r0 =>
    have hstep : callStep sys ⟨u, ark, .done r0⟩ = (sys, ⟨u, ark, .done r0⟩) := by
      unfold callStep
      try dsimp only
      try rfl
    rw [hstep]
    exact ⟨rfl, ub, ofl, by rw [infl], notboth, cnt, openo, dA, dB, fA, fB⟩

theorem runPair_inv (u : List Char) (sch : List Bool) :
    ∀ sys a b, PairInv u sys a b →
      PairInv u (runPair sys a b sch).1 (runPair sys a b sch).2.1
        (runPair sys a b sch).2.2 := by
  induction sch with
  | nil => intro sys a b h; exact h
  | cons pick sch ih =>
    intro sys a b h
    cases pick with
    | true => exact ih _ _ _ (pairInv_step_a u sys a b h)
    | false =>
      exact ih _ _ _
        (pairInv_swap _ _ _ _ (pairInv_step_a u sys b a (pairInv_swap _ _ _ _ h)))

theorem runPair_readOk (sch : List Bool) : ∀ sys a b,
    (runPair sys a b sch).2.1.readOk = a.readOk
    ∧ (runPair sys a b sch).2.2.readOk = b.readOk := by
  induction sch with
  | nil => intro sys a b; exact ⟨rfl, rfl⟩
  | cons pick sch ih =>
    intro sys a b
    cases pick with
    | true =>
      obtain ⟨h1, h2⟩ := ih (callStep sys a).1 (callStep sys a).2 b
      exact ⟨h1.trans (callStep_readOk sys a), h2⟩
    | false =>
      obtain ⟨h1, h2⟩ := ih (callStep sys b).1 a (callStep sys b).2
      exact ⟨h1, h2.trans (callStep_readOk sys b)⟩

theorem pairInv_init (u : List Char) (sA sB : Bool) :
    PairInv u emptySys (mkCall u sA) (mkCall u sB) := by
  refine ⟨rfl, rfl, Or.inl rfl, ?_, ?_, ?_, ?_, ?_, ?_, ?_, ?_⟩
  · show ([] : List (List Char)) = _
    rw [if_neg]
    intro hcon
    rcases hcon with hcon | hcon <;> simp [mkCall] at hcon
  · intro hcon
    simp [mkCall] at hcon
  · show countOpens u [] = _
    simp [countOpens, hasFile, List.find?]
  · intro hor
    rcases hor with hor | hor <;> simp [mkCall] at hor
  · intro r hr
    simp [mkCall] at hr
  · intro r hr
    simp [mkCall] at hr
  · intro hr
    simp [mkCall] at hr
  · intro hr
    simp [mkCall] at hr

/-- **C4 counterexample** Two concurrent `ensureFileOpen` calls for the
same identifier where both `readFile` attempts fail: the second call
observes the in-flight marker, waits, falls through to its own attempt,
and both complete with ZERO `didOpen` announcements — not exactly
one. Schedule: A enters and begins opening, B enters and waits, A's
read fails, B retries and fails. -/
theorem concurrent_open_both_fail_zero :
    (runPair emptySys (mkCall ['u'] false) (mkCall ['u'] false)
        [true, false, true, false, false]).2.1.phase = .done .failed
    ∧ (runPair emptySys (mkCall ['u'] false) (mkCall ['u'] false)
        [true, false, true, false, false]).2.2.phase = .done .failed
    ∧ countOpens ['u'] (runPair emptySys (mkCall ['u'] false) (mkCall ['u'] false)
        [true, false, true, false, false]).1.events = 0 :=
  ⟨rfl, rfl, rfl⟩

/-- **C4 (amended)** For any two interleaved `ensureFileOpen` calls on
the same untracked identifier, at most one `didOpen` announcement is
emitted under every schedule; when both calls' reads succeed and both
calls complete, exactly one is emitted (the later call waits on the
in-flight marker and joins without re-opening; it attempts the open
itself only if the earlier attempt failed). -/
theorem concurrent_open_at_most_one (u : List Char) (sA sB : Bool) (sch : List Bool) :
    countOpens u (runPair emptySys (mkCall u sA) (mkCall u sB) sch).1.events ≤ 1
    ∧ (sA = true → sB = true →
        ∀ rA rB,
          (runPair emptySys (mkCall u sA) (mkCall u sB) sch).2.1.phase = .done rA →
          (runPair emptySys (mkCall u sA) (mkCall u sB) sch).2.2.phase = .done rB →
          countOpens u (runPair emptySys (mkCall u sA) (mkCall u sB) sch).1.events = 1) := by
  have hinv := runPair_inv u sch emptySys _ _ (pairInv_init u sA sB)
  constructor
  · rw [hinv.cnt]
    split <;> omega
  · intro hA hB rA rB hra hrb
    have hroA : (runPair emptySys (mkCall u sA) (mkCall u sB) sch).2.1.readOk = sA :=
      (runPair_readOk sch emptySys (mkCall u sA) (mkCall u sB)).1
    have hrAne : rA ≠ .failed := by
      intro hfail
      rw [hfail] at hra
      have hfa := hinv.fA hra
      rw [hroA, hA] at hfa
      simp at hfa
    have hfile := hinv.dA rA hra hrAne
    rw [hinv.cnt, hfile]
    simp

/-- **C4 witness**: both reads succeed; A opens, B waits then joins. -/
theorem concurrent_open_at_most_one_witness :
    countOpens ['u'] (runPair emptySys (mkCall ['u'] true) (mkCall ['u'] true)
        [true, false, true, false]).1.events ≤ 1
    ∧ countOpens ['u'] (runPair emptySys (mkCall ['u'] true) (mkCall ['u'] true)
        [true, false, true, false]).1.events = 1 :=
  ⟨(concurrent_open_at_most_one ['u'] true true [true, false, true, false]).1,
   (concurrent_open_at_most_one ['u'] true true [true, false, true, false]).2
     rfl rfl .opened .joined rfl rfl⟩

end LsMcp
